import Mathlib

/-!
# QLogin server: the `Database` data-access layer

A shallow embedding of `QLoginServer/DataBase.cpp`.  The two SQLite tables are
lists of rows, every prepared statement of the source is a function on those
lists, and every public method of `Database` is a function from the current
database (plus what the environment supplies to that call) to its return value
and the next database.

What the environment supplies is passed in explicitly:

* `uuid`  the text `QUuid::createUuid().toString(QUuid::WithoutBraces)` of a
  `createUser` call (a random identifier, the source has no retry on collision);
* `now`   the value of `CURRENT_TIMESTAMP` while a writing statement runs, as a
  count of whole seconds (the resolution of `CURRENT_TIMESTAMP`);
* `JsonCodec`  the two `QJsonDocument` conversions used by the source.

Scope of the embedding: a `QString` argument is a text (not the null
`QString`), the connection is open and `createTables` has succeeded, and a
statement fails only through a constraint declared in `createTables` (no I/O
failure).  The `NOT NULL` columns are fields of type `String` and `Nat`.  The
`FOREIGN KEY` clause of `user_data` is not enforced: the source never issues
`PRAGMA foreign_keys = ON`.  The surrogate `INTEGER PRIMARY KEY AUTOINCREMENT`
column of `user_data` is never read or written by any statement of the source
and is left out of the row type.  Result sets are produced in table order; no
statement of the source has an `ORDER BY`, and no theorem below depends on the
order of a result set with more than one row.
-/

namespace QLogin

/-! ## Tables (`Database::createTables`) -/

/-- A row of table users: id TEXT PRIMARY KEY, username TEXT UNIQUE NOT NULL,
password_hash TEXT NOT NULL, created_at DATETIME DEFAULT CURRENT_TIMESTAMP. -/
structure UserRow where
  id : String
  username : String
  password_hash : String
  created_at : Nat
deriving DecidableEq

/-- A row of table user_data: user_id, data_key, data_value TEXT NOT NULL,
created_at and updated_at DATETIME DEFAULT CURRENT_TIMESTAMP, with
UNIQUE(user_id, data_key). -/
structure UserDataRow where
  user_id : String
  data_key : String
  data_value : String
  created_at : Nat
  updated_at : Nat
deriving DecidableEq

/-- The contents of the database behind the member m_db. -/
structure Database where
  users : List UserRow
  user_data : List UserDataRow
deriving DecidableEq

/-- The database right after createTables has run on a new file: both tables
exist and are empty. -/
def createTables : Database := ⟨[], []⟩

/-! ## The `QJsonDocument` conversions -/

/-- The conversions between a QJsonObject (type Doc) and its text.
toJson is QJsonDocument(data).toJson(QJsonDocument::Compact) read as a QString,
fromJson is QJsonDocument::fromJson(text.toUtf8()), with none for a document that
holds no object (a null document after a parse error, or an array),
emptyObject is QJsonObject(). -/
structure JsonCodec (Doc : Type) where
  toJson : Doc → String
  fromJson : String → Option Doc
  emptyObject : Doc

/-- The method QJsonDocument::object(): the object of the document, or an
empty object when the document holds none. -/
def JsonCodec.object {Doc : Type} (c : JsonCodec Doc) : Option Doc → Doc
  | some d => d
  | none => c.emptyObject

/-- A document is serializable when parsing its compact text gives it back. -/
def Serializable {Doc : Type} (c : JsonCodec Doc) (D : Doc) : Prop :=
  c.object (c.fromJson (c.toJson D)) = D

/-! ## A reference codec: compact JSON text

The theorems on `saveUserData` and `getUserData` hold for every `JsonCodec`.
This section is one such codec, the text format `QJsonDocument` writes in
`Compact` mode (RFC 8259 without insignificant white space) on documents whose
numbers are integers; `qjson_serializable` shows that it gives every document
back, and the claims are instantiated with it at concrete documents.
-/

mutual
/-- A JSON value (QJsonValue), numbers restricted to integers. -/
inductive QJsonValue where
  | null
  | bool (b : Bool)
  | number (n : Int)
  | string (s : String)
  | array (items : QJsonArray)
  | object (members : QJsonObject)
deriving DecidableEq
/-- A JSON array (QJsonArray). -/
inductive QJsonArray where
  | nil
  | cons (head : QJsonValue) (tail : QJsonArray)
deriving DecidableEq
/-- A JSON object (QJsonObject): its members, key by key. -/
inductive QJsonObject where
  | nil
  | cons (key : String) (value : QJsonValue) (tail : QJsonObject)
deriving DecidableEq
end

/-- The escape sequence of one character inside a JSON string: the quote, the
backslash and the control characters are escaped, every other character is
written as it is. -/
def escapeChar (c : Char) : List Char :=
  if c = '"' then ['\\', '"']
  else if c = '\\' then ['\\', '\\']
  else if c = '\x08' then ['\\', 'b']
  else if c = '\x0c' then ['\\', 'f']
  else if c = '\n' then ['\\', 'n']
  else if c = '\r' then ['\\', 'r']
  else if c = '\t' then ['\\', 't']
  else if c.toNat < 32 then
    ['\\', 'u', '0', '0', Nat.digitChar (c.toNat / 16), Nat.digitChar (c.toNat % 16)]
  else [c]

/-- The characters of a string, escaped (without the enclosing quotes). -/
def escapeString : List Char → List Char
  | [] => []
  | c :: cs => escapeChar c ++ escapeString cs

/-- A JSON string literal. -/
def writeString (s : List Char) : List Char :=
  '"' :: escapeString s ++ ['"']

/-- A JSON integer literal. -/
def writeNumber : Int → List Char
  | Int.ofNat m => Nat.toDigits 10 m
  | Int.negSucc m => '-' :: Nat.toDigits 10 (m + 1)

/-- The text of a truth value. -/
def boolText (b : Bool) : List Char :=
  if b then "true".data else "false".data

mutual
/-- The compact text of a value. -/
def writeValue : QJsonValue → List Char
  | .number n => writeNumber n
  | .bool b => boolText b
  | .null => "null".data
  | .string s => writeString s.data
  | .array a => '[' :: writeArray a
  | .object o => '{' :: writeObject o
/-- The elements of an array, comma separated, and the closing bracket. -/
def writeArray : QJsonArray → List Char
  | .nil => [']']
  | .cons v .nil => writeValue v ++ [']']
  | .cons v (.cons w t) => writeValue v ++ ',' :: writeArray (.cons w t)
/-- The members of an object, comma separated, and the closing brace. -/
def writeObject : QJsonObject → List Char
  | .nil => ['}']
  | .cons k v .nil => writeString k.data ++ ':' :: (writeValue v ++ ['}'])
  | .cons k v (.cons k2 v2 t) =>
    writeString k.data ++ ':' :: (writeValue v ++ ',' :: writeObject (.cons k2 v2 t))
end

/-- The value of a hexadecimal digit. -/
def hexValue (c : Char) : Option Nat :=
  if '0' ≤ c ∧ c ≤ '9' then some (c.toNat - 48)
  else if 'a' ≤ c ∧ c ≤ 'f' then some (c.toNat - 87)
  else if 'A' ≤ c ∧ c ≤ 'F' then some (c.toNat - 55)
  else none

/-- The character an escape letter stands for. -/
def unescape (e : Char) : Option Char :=
  if e = '"' then some '"'
  else if e = '\\' then some '\\'
  else if e = '/' then some '/'
  else if e = 'b' then some '\x08'
  else if e = 'f' then some '\x0c'
  else if e = 'n' then some '\n'
  else if e = 'r' then some '\r'
  else if e = 't' then some '\t'
  else none

/-- Reads a string literal after its opening quote: the decoded characters and
the text after the closing quote. -/
def parseString : List Char → Option (List Char × List Char)
  | [] => none
  | c :: rest =>
    if c = '"' then some ([], rest)
    else if c = '\\' then
      match rest with
      | [] => none
      | e :: rest2 =>
        if e = 'u' then
          match rest2 with
          | a :: b :: x :: y :: rest3 =>
            match hexValue a, hexValue b, hexValue x, hexValue y, parseString rest3 with
            | some h1, some h2, some h3, some h4, some (s, r) =>
              some (Char.ofNat (((h1 * 16 + h2) * 16 + h3) * 16 + h4) :: s, r)
            | _, _, _, _, _ => none
          | _ => none
        else
          match unescape e, parseString rest2 with
          | some d, some (s, r) => some (d :: s, r)
          | _, _ => none
    else if c.toNat < 32 then none
    else
      match parseString rest with
      | some (s, r) => some (c :: s, r)
      | none => none

/-- Reads decimal digits as long as there are some. -/
def parseDigits : Nat → List Char → Nat × List Char
  | acc, [] => (acc, [])
  | acc, c :: rest =>
    if c.isDigit then parseDigits (acc * 10 + (c.toNat - 48)) rest else (acc, c :: rest)

/-- Reads an integer literal: an optional minus sign and at least one digit. -/
def parseNumber : List Char → Option (Int × List Char)
  | [] => none
  | c :: rest =>
    if c = '-' then
      match rest with
      | [] => none
      | d :: _ =>
        if d.isDigit then some (- ((parseDigits 0 rest).1 : Int), (parseDigits 0 rest).2)
        else none
    else if c.isDigit then
      some (((parseDigits 0 (c :: rest)).1 : Int), (parseDigits 0 (c :: rest)).2)
    else none

/-- Removes a literal from the start of a text. -/
def stripLiteral : List Char → List Char → Option (List Char)
  | [], text => some text
  | _ :: _, [] => none
  | c :: lit, d :: text => if c = d then stripLiteral lit text else none

/-- Reads a value that has no value inside it: null, true, false, a string or
a number; c is the first character of the text. -/
def parseAtom (c : Char) (rest : List Char) : Option (QJsonValue × List Char) :=
  if c = 'n' then (stripLiteral "ull".data rest).map fun r => (QJsonValue.null, r)
  else if c = 't' then (stripLiteral "rue".data rest).map fun r => (QJsonValue.bool true, r)
  else if c = 'f' then (stripLiteral "alse".data rest).map fun r => (QJsonValue.bool false, r)
  else if c = '"' then (parseString rest).map fun sr => (QJsonValue.string (String.mk sr.1), sr.2)
  else (parseNumber (c :: rest)).map fun nr => (QJsonValue.number nr.1, nr.2)

mutual
/-- Reads one value; the first argument bounds the number of nested reads. -/
def parseValue : Nat → List Char → Option (QJsonValue × List Char)
  | 0, _ => none
  | fuel + 1, text =>
    match text with
    | [] => none
    | c :: rest =>
      if c = '[' then
        match rest with
        | [] => none
        | d :: rest2 =>
          if d = ']' then some (.array .nil, rest2)
          else (parseElements fuel rest).map fun ar => (QJsonValue.array ar.1, ar.2)
      else if c = '{' then
        match rest with
        | [] => none
        | d :: rest2 =>
          if d = '}' then some (.object .nil, rest2)
          else (parseMembers fuel rest).map fun mr => (QJsonValue.object mr.1, mr.2)
      else parseAtom c rest
/-- Reads the elements of a non-empty array up to its closing bracket. -/
def parseElements : Nat → List Char → Option (QJsonArray × List Char)
  | 0, _ => none
  | fuel + 1, text =>
    match parseValue fuel text with
    | none => none
    | some (_, []) => none
    | some (v, d :: rest) =>
      if d = ']' then some (.cons v .nil, rest)
      else if d = ',' then (parseElements fuel rest).map fun ar => (QJsonArray.cons v ar.1, ar.2)
      else none
/-- Reads the members of a non-empty object up to its closing brace. -/
def parseMembers : Nat → List Char → Option (QJsonObject × List Char)
  | 0, _ => none
  | fuel + 1, text =>
    match text with
    | [] => none
    | q :: text2 =>
      if q = '"' then
        match parseString text2 with
        | none => none
        | some (_, []) => none
        | some (k, colon :: rest) =>
          if colon = ':' then
            match parseValue fuel rest with
            | none => none
            | some (_, []) => none
            | some (v, d :: rest2) =>
              if d = '}' then some (.cons (String.mk k) v .nil, rest2)
              else if d = ',' then
                (parseMembers fuel rest2).map fun mr =>
                  (QJsonObject.cons (String.mk k) v mr.1, mr.2)
              else none
          else none
      else none
end

mutual
/-- The number of values, array elements and object members in a value. -/
def QJsonValue.nodes : QJsonValue → Nat
  | .array a => a.nodes + 1
  | .object o => o.nodes + 1
  | _ => 1
/-- The number of values and elements in an array. -/
def QJsonArray.nodes : QJsonArray → Nat
  | .nil => 0
  | .cons v t => v.nodes + t.nodes + 1
/-- The number of values and members in an object. -/
def QJsonObject.nodes : QJsonObject → Nat
  | .nil => 0
  | .cons _ v t => v.nodes + t.nodes + 1
end

/-- Whether a text begins with a decimal digit. -/
def startsWithDigit : List Char → Bool
  | [] => false
  | c :: _ => c.isDigit

/-- The reference codec on QJsonObject: compact text out, and back in when the
whole text is one object. -/
def qjson : JsonCodec QJsonObject where
  toJson o := String.mk (writeValue (.object o))
  fromJson s :=
    match parseValue (s.data.length + 1) s.data with
    | some (.object o, []) => some o
    | _ => none
  emptyObject := .nil

/-- A document with nested arrays and objects, an escaped string and a negative
number. -/
def sampleDoc : QJsonObject :=
  .cons "name" (.string "a\"b\n")
    (.cons "tags" (.array (.cons (.number (-12)) (.cons .null (.cons (.bool true) .nil))))
      (.cons "inner" (.object (.cons "empty" (.object .nil) .nil)) .nil))

/-- A second document. -/
def sampleDoc2 : QJsonObject :=
  .cons "v" (.number 2) .nil

/-! ## Prepared statements -/

/-- INSERT INTO users (id, username, password_hash) VALUES (?, ?, ?).
The statement fails (none) when the id is already a primary key or the username
is already present; otherwise the row is added with created_at defaulted. -/
def insertUser (users : List UserRow) (id username passwordHash : String) (now : Nat) :
    Option (List UserRow) :=
  if users.any (fun r => decide (r.id = id)) then none
  else if users.any (fun r => decide (r.username = username)) then none
  else some (users ++ [⟨id, username, passwordHash, now⟩])

/-- The rows selected by WHERE username = ? (text compared byte for byte). -/
def whereUsername (users : List UserRow) (username : String) : List UserRow :=
  users.filter (fun r => decide (r.username = username))

/-- The predicate user_id = ? AND data_key = ?. -/
def matchesKey (userId dataKey : String) (r : UserDataRow) : Bool :=
  decide (r.user_id = userId) && decide (r.data_key = dataKey)

/-- INSERT INTO user_data (user_id, data_key, data_value, updated_at)
VALUES (?, ?, ?, CURRENT_TIMESTAMP) ON CONFLICT(user_id, data_key)
DO UPDATE SET data_value = ?, updated_at = CURRENT_TIMESTAMP.
A row with the same (user_id, data_key) is updated in place; otherwise a new row
is added, its created_at defaulted to the same CURRENT_TIMESTAMP. -/
def upsertUserData (rows : List UserDataRow) (userId dataKey jsonString jsonString2 : String)
    (now : Nat) : Option (List UserDataRow) :=
  if rows.any (matchesKey userId dataKey) then
    some (rows.map fun r =>
      if matchesKey userId dataKey r then { r with data_value := jsonString2, updated_at := now }
      else r)
  else
    some (rows ++ [⟨userId, dataKey, jsonString, now, now⟩])

/-- DELETE FROM user_data WHERE user_id = ? AND data_key = ?.  -/
def deleteWhereKey (rows : List UserDataRow) (userId dataKey : String) :
    Option (List UserDataRow) :=
  some (rows.filter fun r => !matchesKey userId dataKey r)

/-- The conversion QVariant::toInt() of a 64-bit COUNT(*): the low 32 bits, signed. -/
def toInt (n : Nat) : Int :=
  if n % 2 ^ 32 < 2 ^ 31 then ((n % 2 ^ 32 : Nat) : Int) else ((n % 2 ^ 32 : Nat) : Int) - 2 ^ 32

/-! ## Public methods of `Database` -/

/-- Database::createUser. -/
def createUser (db : Database) (uuid username passwordHash : String) (now : Nat) :
    Bool × Database :=
  let userId := uuid
  match insertUser db.users userId username passwordHash now with
  | none => (false, db)
  | some users => (true, { db with users := users })

/-- Database::userExists: SELECT COUNT(*) FROM users WHERE username = ?. -/
def userExists (db : Database) (username : String) : Bool :=
  match [(whereUsername db.users username).length] with
  | count :: _ => decide (toInt count > 0)
  | [] => false

/-- Database::getUserPasswordHash: SELECT password_hash FROM users WHERE username = ?. -/
def getUserPasswordHash (db : Database) (username : String) : String :=
  match (whereUsername db.users username).map (fun r => r.password_hash) with
  | value :: _ => value
  | [] => ""

/-- Database::getUserId: SELECT id FROM users WHERE username = ?. -/
def getUserId (db : Database) (username : String) : String :=
  match (whereUsername db.users username).map (fun r => r.id) with
  | value :: _ => value
  | [] => ""

/-- Database::saveUserData. -/
def saveUserData {Doc : Type} (c : JsonCodec Doc) (db : Database) (userId dataKey : String)
    (data : Doc) (now : Nat) : Bool × Database :=
  let jsonString := c.toJson data
  match upsertUserData db.user_data userId dataKey jsonString jsonString now with
  | none => (false, db)
  | some rows => (true, { db with user_data := rows })

/-- Database::getUserData: SELECT data_value FROM user_data WHERE user_id = ? AND data_key = ?. -/
def getUserData {Doc : Type} (c : JsonCodec Doc) (db : Database) (userId dataKey : String) : Doc :=
  match (db.user_data.filter (matchesKey userId dataKey)).map (fun r => r.data_value) with
  | jsonString :: _ => c.object (c.fromJson jsonString)
  | [] => c.emptyObject

/-- One element of the QJsonArray built by getAllUserData. -/
structure DataItem (Doc : Type) where
  key : String
  data : Doc
  created_at : Nat
  updated_at : Nat

/-- Database::getAllUserData: SELECT data_key, data_value, created_at, updated_at
FROM user_data WHERE user_id = ?. -/
def getAllUserData {Doc : Type} (c : JsonCodec Doc) (db : Database) (userId : String) :
    List (DataItem Doc) :=
  (db.user_data.filter (fun r => decide (r.user_id = userId))).map fun r =>
    { key := r.data_key
      data := c.object (c.fromJson r.data_value)
      created_at := r.created_at
      updated_at := r.updated_at }

/-- Database::deleteUserData. -/
def deleteUserData (db : Database) (userId dataKey : String) : Bool × Database :=
  match deleteWhereKey db.user_data userId dataKey with
  | none => (false, db)
  | some rows => (true, { db with user_data := rows })

/-! ## Histories of calls -/

/-- A call of a public method, with what the environment supplied to it. -/
inductive Op (Doc : Type) where
  | createUser (uuid username passwordHash : String) (now : Nat)
  | userExists (username : String)
  | getUserPasswordHash (username : String)
  | getUserId (username : String)
  | saveUserData (userId dataKey : String) (data : Doc) (now : Nat)
  | getUserData (userId dataKey : String)
  | getAllUserData (userId : String)
  | deleteUserData (userId dataKey : String)

/-- The database after one call (the reading methods leave it as it is). -/
def step {Doc : Type} (c : JsonCodec Doc) (db : Database) : Op Doc → Database
  | .createUser uuid username passwordHash now => (createUser db uuid username passwordHash now).2
  | .saveUserData userId dataKey data now => (saveUserData c db userId dataKey data now).2
  | .deleteUserData userId dataKey => (deleteUserData db userId dataKey).2
  | .userExists _ => db
  | .getUserPasswordHash _ => db
  | .getUserId _ => db
  | .getUserData _ _ => db
  | .getAllUserData _ => db

/-- The database after a sequence of calls, one after the other (the mutex of
the source lets no two calls overlap). -/
def exec {Doc : Type} (c : JsonCodec Doc) : List (Op Doc) → Database → Database
  | [], db => db
  | op :: ops, db => exec c ops (step c db op)

/-- The document a history leaves under (userId, dataKey), starting from a table
that holds prev there: the last one saved, unless a delete came after it. -/
def lastSavedFrom {Doc : Type} (userId dataKey : String) :
    Option Doc → List (Op Doc) → Option Doc
  | prev, [] => prev
  | prev, .saveUserData u k data _ :: ops =>
      lastSavedFrom userId dataKey (if u = userId ∧ k = dataKey then some data else prev) ops
  | prev, .deleteUserData u k :: ops =>
      lastSavedFrom userId dataKey (if u = userId ∧ k = dataKey then none else prev) ops
  | prev, _ :: ops => lastSavedFrom userId dataKey prev ops

/-- The document last saved under (userId, dataKey) and not deleted since, in a
history that starts on empty tables. -/
def lastSaved {Doc : Type} (ops : List (Op Doc)) (userId dataKey : String) : Option Doc :=
  lastSavedFrom userId dataKey none ops

/-- Whether a call writes or deletes the pair (userId, dataKey). -/
def touches {Doc : Type} (userId dataKey : String) : Op Doc → Bool
  | .saveUserData u k _ _ => decide (u = userId ∧ k = dataKey)
  | .deleteUserData u k => decide (u = userId ∧ k = dataKey)
  | _ => false

/-- The table holds what the record g says: under every pair (u, k) the stored
texts are exactly the text of g u k, one row when g u k is a document and no
row when it is none. -/
def Tracks {Doc : Type} (c : JsonCodec Doc) (rows : List UserDataRow)
    (g : String → String → Option Doc) : Prop :=
  ∀ u k, (rows.filter (matchesKey u k)).map (fun r => r.data_value) =
    (g u k).toList.map c.toJson

/-- The calls saveUserData(userId, key, document) of a batch, each with the
clock reading of its statement. -/
def saveCalls {Doc : Type} (userId : String) (calls : List (String × Doc × Nat)) :
    List (Op Doc) :=
  calls.map fun call => Op.saveUserData userId call.1 call.2.1 call.2.2

/-- A text as QUuid::createUuid().toString(QUuid::WithoutBraces) returns them. -/
def uuidA : String := "0d9f7a52-3c1b-4e6a-9f2d-7b8c1a2e4f60"

/-- A second generated id. -/
def uuidB : String := "7c1e44b0-58a3-4d17-b6e9-2f4a9c0d1e35"

/-- A third generated id. -/
def uuidC : String := "5b2a90c1-e4d7-4a38-8c15-6d0f3b7a9e21"

/-- A history on two users: three saves, one of them overwritten later, and a
delete. -/
def sampleHistory : List (Op QJsonObject) :=
  [ .createUser uuidA "alice" "h1" 10,
    .saveUserData "u1" "a" sampleDoc 11,
    .saveUserData "u2" "b" sampleDoc 12,
    .saveUserData "u1" "c" sampleDoc 13,
    .saveUserData "u1" "c" sampleDoc2 14,
    .deleteUserData "u1" "a" ]

/-! ## The reference codec gives every document back -/

theorem hexValue_digitChar (n : Nat) (h : n < 16) : hexValue (Nat.digitChar n) = some n := by
  interval_cases n <;> decide

theorem isDigit_digitChar (n : Nat) (h : n < 10) :
    (Nat.digitChar n).isDigit = true ∧ (Nat.digitChar n).toNat - 48 = n := by
  interval_cases n <;> decide

theorem parseString_quote (rest : List Char) : parseString ('"' :: rest) = some ([], rest) := by
  rw [parseString.eq_def]
  simp

theorem parseString_escape (e : Char) (rest : List Char) (he : e ≠ 'u') :
    parseString ('\\' :: e :: rest) =
      match unescape e, parseString rest with
      | some d, some (s, r) => some (d :: s, r)
      | _, _ => none := by
  rw [parseString.eq_def]
  simp [he]

theorem parseString_hex (a b x y : Char) (rest : List Char) :
    parseString ('\\' :: 'u' :: a :: b :: x :: y :: rest) =
      match hexValue a, hexValue b, hexValue x, hexValue y, parseString rest with
      | some h1, some h2, some h3, some h4, some (s, r) =>
        some (Char.ofNat (((h1 * 16 + h2) * 16 + h3) * 16 + h4) :: s, r)
      | _, _, _, _, _ => none := by
  rw [parseString.eq_def]
  simp

theorem parseString_plain (c : Char) (rest : List Char) (h1 : c ≠ '"') (h2 : c ≠ '\\')
    (h3 : ¬ c.toNat < 32) :
    parseString (c :: rest) =
      match parseString rest with
      | some (s, r) => some (c :: s, r)
      | none => none := by
  rw [parseString.eq_def]
  simp [h1, h2, h3]

theorem parseString_escapeChar (c : Char) (tail cs rest : List Char)
    (h : parseString tail = some (cs, rest)) :
    parseString (escapeChar c ++ tail) = some (c :: cs, rest) := by
  unfold escapeChar
  split
  · rename_i hc
    subst hc
    rw [List.cons_append, List.cons_append, List.nil_append,
      parseString_escape _ _ (by decide), h]
    rfl
  split
  · rename_i hc
    subst hc
    rw [List.cons_append, List.cons_append, List.nil_append,
      parseString_escape _ _ (by decide), h]
    rfl
  split
  · rename_i hc
    subst hc
    rw [List.cons_append, List.cons_append, List.nil_append,
      parseString_escape _ _ (by decide), h]
    rfl
  split
  · rename_i hc
    subst hc
    rw [List.cons_append, List.cons_append, List.nil_append,
      parseString_escape _ _ (by decide), h]
    rfl
  split
  · rename_i hc
    subst hc
    rw [List.cons_append, List.cons_append, List.nil_append,
      parseString_escape _ _ (by decide), h]
    rfl
  split
  · rename_i hc
    subst hc
    rw [List.cons_append, List.cons_append, List.nil_append,
      parseString_escape _ _ (by decide), h]
    rfl
  split
  · rename_i hc
    subst hc
    rw [List.cons_append, List.cons_append, List.nil_append,
      parseString_escape _ _ (by decide), h]
    rfl
  split
  · rename_i hlt
    have hhi : c.toNat / 16 < 16 := by omega
    have hlo : c.toNat % 16 < 16 := by omega
    simp only [List.cons_append, List.nil_append]
    rw [parseString_hex, hexValue_digitChar _ hhi, hexValue_digitChar _ hlo, h]
    have h0 : hexValue '0' = some 0 := by decide
    simp only [h0]
    have harith : ((0 * 16 + 0) * 16 + c.toNat / 16) * 16 + c.toNat % 16 = c.toNat := by omega
    rw [harith, Char.ofNat_toNat]
  · rename_i h1 h2 _ _ _ _ _ h8
    rw [List.cons_append, List.nil_append, parseString_plain c tail h1 h2 h8, h]

theorem parseString_escapeString (s rest : List Char) :
    parseString (escapeString s ++ '"' :: rest) = some (s, rest) := by
  induction s with
  | nil => exact parseString_quote rest
  | cons c cs ih =>
    rw [escapeString, List.append_assoc]
    exact parseString_escapeChar c _ cs rest ih

theorem parseDigits_toDigitsCore (fuel : Nat) :
    ∀ (n : Nat) (ds : List Char), n < fuel →
      ∃ len, ∀ (acc : Nat) (rest : List Char),
        parseDigits acc (Nat.toDigitsCore 10 fuel n ds ++ rest) =
          parseDigits (acc * 10 ^ len + n) (ds ++ rest) := by
  induction fuel with
  | zero => intro n ds h; omega
  | succ fuel ih =>
    intro n ds hn
    have hd := isDigit_digitChar (n % 10) (Nat.mod_lt _ (by decide))
    by_cases h0 : n / 10 = 0
    · refine ⟨1, fun acc rest => ?_⟩
      simp only [Nat.toDigitsCore, h0, if_true, List.cons_append]
      rw [parseDigits, if_pos hd.1, hd.2]
      congr 1
      omega
    · obtain ⟨len, hlen⟩ := ih (n / 10) (Nat.digitChar (n % 10) :: ds) (by omega)
      refine ⟨len + 1, fun acc rest => ?_⟩
      simp only [Nat.toDigitsCore, h0, if_false]
      rw [hlen, List.cons_append, parseDigits, if_pos hd.1, hd.2]
      congr 1
      rw [pow_succ]
      have := Nat.div_add_mod n 10
      nlinarith [this]

theorem toDigitsCore_head (fuel : Nat) :
    ∀ (n : Nat) (ds : List Char), n < fuel →
      ∃ c tl, Nat.toDigitsCore 10 fuel n ds = c :: tl ∧ c.isDigit = true := by
  induction fuel with
  | zero => intro n ds h; omega
  | succ fuel ih =>
    intro n ds hn
    have hd := isDigit_digitChar (n % 10) (Nat.mod_lt _ (by decide))
    by_cases h0 : n / 10 = 0
    · exact ⟨_, ds, by simp only [Nat.toDigitsCore, h0, if_true], hd.1⟩
    · obtain ⟨c, tl, h1, h2⟩ := ih (n / 10) (Nat.digitChar (n % 10) :: ds) (by omega)
      exact ⟨c, tl, by simp only [Nat.toDigitsCore, h0, if_false]; exact h1, h2⟩

theorem parseDigits_stop (acc : Nat) (rest : List Char) (h : startsWithDigit rest = false) :
    parseDigits acc rest = (acc, rest) := by
  cases rest with
  | nil => rfl
  | cons c tl =>
    simp only [startsWithDigit] at h
    rw [parseDigits, h]
    simp

theorem parseDigits_toDigits (n : Nat) (rest : List Char) (h : startsWithDigit rest = false) :
    parseDigits 0 (Nat.toDigits 10 n ++ rest) = (n, rest) := by
  obtain ⟨len, hlen⟩ := parseDigits_toDigitsCore (n + 1) n [] (Nat.lt_succ_self n)
  rw [Nat.toDigits, hlen, List.nil_append, Nat.zero_mul, Nat.zero_add]
  exact parseDigits_stop n rest h

theorem toDigits_head (n : Nat) :
    ∃ c tl, Nat.toDigits 10 n = c :: tl ∧ c.isDigit = true :=
  toDigitsCore_head (n + 1) n [] (Nat.lt_succ_self n)

theorem parseNumber_writeNumber (n : Int) (rest : List Char)
    (h : startsWithDigit rest = false) :
    parseNumber (writeNumber n ++ rest) = some (n, rest) := by
  cases n with
  | ofNat m =>
    obtain ⟨c, tl, hc, hd⟩ := toDigits_head m
    have hpd := parseDigits_toDigits m rest h
    simp only [writeNumber]
    rw [hc] at hpd ⊢
    have hminus : c ≠ '-' := by
      intro he; subst he; exact absurd hd (by decide)
    rw [List.cons_append] at hpd ⊢
    simp only [parseNumber, if_neg hminus, if_pos hd, hpd]
    rfl
  | negSucc m =>
    obtain ⟨c, tl, hc, hd⟩ := toDigits_head (m + 1)
    have hpd := parseDigits_toDigits (m + 1) rest h
    simp only [writeNumber, List.cons_append]
    rw [hc] at hpd ⊢
    rw [List.cons_append] at hpd ⊢
    simp only [parseNumber, if_true, hd, hpd]
    rfl

theorem stripLiteral_append (lit rest : List Char) :
    stripLiteral lit (lit ++ rest) = some rest := by
  induction lit with
  | nil => rfl
  | cons c lit ih => simp [stripLiteral, ih]

theorem parseValue_atom (fuel : Nat) (c : Char) (text : List Char) (h1 : c ≠ '[')
    (h2 : c ≠ '{') : parseValue (fuel + 1) (c :: text) = parseAtom c text := by
  rw [parseValue.eq_def]
  simp [h1, h2]

theorem parseValue_array_nil (fuel : Nat) (rest : List Char) :
    parseValue (fuel + 1) ('[' :: ']' :: rest) = some (.array .nil, rest) := by
  rw [parseValue.eq_def]
  simp

theorem parseValue_array (fuel : Nat) (d : Char) (text : List Char) (hd : d ≠ ']') :
    parseValue (fuel + 1) ('[' :: d :: text) =
      (parseElements fuel (d :: text)).map fun ar => (QJsonValue.array ar.1, ar.2) := by
  rw [parseValue.eq_def]
  simp [hd]

theorem parseValue_object_nil (fuel : Nat) (rest : List Char) :
    parseValue (fuel + 1) ('{' :: '}' :: rest) = some (.object .nil, rest) := by
  rw [parseValue.eq_def]
  simp

theorem parseValue_object (fuel : Nat) (d : Char) (text : List Char) (hd : d ≠ '}') :
    parseValue (fuel + 1) ('{' :: d :: text) =
      (parseMembers fuel (d :: text)).map fun mr => (QJsonValue.object mr.1, mr.2) := by
  rw [parseValue.eq_def]
  simp [hd]

theorem parseElements_last (fuel : Nat) (text rest : List Char) (v : QJsonValue)
    (h : parseValue fuel text = some (v, ']' :: rest)) :
    parseElements (fuel + 1) text = some (.cons v .nil, rest) := by
  rw [parseElements.eq_def]
  simp [h]

theorem parseElements_more (fuel : Nat) (text text2 rest : List Char) (v : QJsonValue)
    (a : QJsonArray) (h : parseValue fuel text = some (v, ',' :: text2))
    (h2 : parseElements fuel text2 = some (a, rest)) :
    parseElements (fuel + 1) text = some (.cons v a, rest) := by
  rw [parseElements.eq_def]
  simp [h, h2]

theorem parseMembers_last (fuel : Nat) (text text2 rest : List Char) (k : List Char)
    (v : QJsonValue) (hk : parseString text = some (k, ':' :: text2))
    (h : parseValue fuel text2 = some (v, '}' :: rest)) :
    parseMembers (fuel + 1) ('"' :: text) = some (.cons (String.mk k) v .nil, rest) := by
  rw [parseMembers.eq_def]
  simp [hk, h]

theorem parseMembers_more (fuel : Nat) (text text2 text3 rest : List Char) (k : List Char)
    (v : QJsonValue) (o : QJsonObject) (hk : parseString text = some (k, ':' :: text2))
    (h : parseValue fuel text2 = some (v, ',' :: text3))
    (h2 : parseMembers fuel text3 = some (o, rest)) :
    parseMembers (fuel + 1) ('"' :: text) = some (.cons (String.mk k) v o, rest) := by
  rw [parseMembers.eq_def]
  simp [hk, h, h2]

theorem parseValue_number (fuel : Nat) (n : Int) (rest : List Char)
    (h : startsWithDigit rest = false) :
    parseValue (fuel + 1) (writeNumber n ++ rest) = some (.number n, rest) := by
  have hp := parseNumber_writeNumber n rest h
  have hhead : ∃ c tl, writeNumber n ++ rest = c :: tl ∧ (c = '-' ∨ c.isDigit = true) := by
    cases n with
    | ofNat m =>
      obtain ⟨c, tl, hc, hd⟩ := toDigits_head m
      exact ⟨c, tl ++ rest, by simp only [writeNumber, hc, List.cons_append], Or.inr hd⟩
    | negSucc m => exact ⟨'-', Nat.toDigits 10 (m + 1) ++ rest, rfl, Or.inl rfl⟩
  obtain ⟨c, tl, hc, hcd⟩ := hhead
  rw [hc] at hp ⊢
  have h1 : c ≠ '[' := by
    rintro rfl; rcases hcd with h | h <;> exact absurd h (by decide)
  have h2 : c ≠ '{' := by
    rintro rfl; rcases hcd with h | h <;> exact absurd h (by decide)
  have h3 : c ≠ 'n' := by
    rintro rfl; rcases hcd with h | h <;> exact absurd h (by decide)
  have h4 : c ≠ 't' := by
    rintro rfl; rcases hcd with h | h <;> exact absurd h (by decide)
  have h5 : c ≠ 'f' := by
    rintro rfl; rcases hcd with h | h <;> exact absurd h (by decide)
  have h6 : c ≠ '"' := by
    rintro rfl; rcases hcd with h | h <;> exact absurd h (by decide)
  rw [parseValue_atom fuel c tl h1 h2, parseAtom, if_neg h3, if_neg h4, if_neg h5, if_neg h6, hp]
  rfl

theorem parseValue_null (fuel : Nat) (rest : List Char) :
    parseValue (fuel + 1) ("null".data ++ rest) = some (.null, rest) := by
  show parseValue (fuel + 1) ('n' :: ("ull".data ++ rest)) = _
  rw [parseValue_atom fuel 'n' _ (by decide) (by decide), parseAtom, if_pos rfl,
    stripLiteral_append]
  rfl

theorem parseValue_bool (fuel : Nat) (b : Bool) (rest : List Char) :
    parseValue (fuel + 1) (boolText b ++ rest) = some (.bool b, rest) := by
  cases b with
  | true =>
    show parseValue (fuel + 1) ('t' :: ("rue".data ++ rest)) = _
    rw [parseValue_atom fuel 't' _ (by decide) (by decide), parseAtom, if_neg (by decide),
      if_pos rfl, stripLiteral_append]
    rfl
  | false =>
    show parseValue (fuel + 1) ('f' :: ("alse".data ++ rest)) = _
    rw [parseValue_atom fuel 'f' _ (by decide) (by decide), parseAtom, if_neg (by decide),
      if_neg (by decide), if_pos rfl, stripLiteral_append]
    rfl

theorem parseValue_string (fuel : Nat) (s : String) (rest : List Char) :
    parseValue (fuel + 1) (writeString s.data ++ rest) = some (.string s, rest) := by
  show parseValue (fuel + 1) ('"' :: ((escapeString s.data ++ ['"']) ++ rest)) = _
  rw [parseValue_atom fuel '"' _ (by decide) (by decide), parseAtom, if_neg (by decide),
    if_neg (by decide), if_neg (by decide), if_pos rfl, List.append_assoc]
  show Option.map _ (parseString (escapeString s.data ++ '"' :: rest)) = _
  rw [parseString_escapeString]
  rfl

/-- The first character of the text of a value is neither a closing bracket
nor a closing brace. -/
theorem writeValue_head (v : QJsonValue) :
    ∃ c tl, writeValue v = c :: tl ∧ c ≠ ']' ∧ c ≠ '}' := by
  cases v with
  | null => exact ⟨'n', "ull".data, by rw [writeValue], by decide, by decide⟩
  | bool b =>
    cases b
    · exact ⟨'f', _, by rw [writeValue]; rfl, by decide, by decide⟩
    · exact ⟨'t', _, by rw [writeValue]; rfl, by decide, by decide⟩
  | number n =>
    cases n with
    | ofNat m =>
      obtain ⟨c, tl, hc, hd⟩ := toDigits_head m
      refine ⟨c, tl, by rw [writeValue]; exact hc, ?_, ?_⟩
      · rintro rfl; exact absurd hd (by decide)
      · rintro rfl; exact absurd hd (by decide)
    | negSucc m => exact ⟨'-', _, by rw [writeValue, writeNumber], by decide, by decide⟩
  | string s => exact ⟨'"', _, by rw [writeValue]; rfl, by decide, by decide⟩
  | array a => exact ⟨'[', _, by rw [writeValue], by decide, by decide⟩
  | object o => exact ⟨'{', _, by rw [writeValue], by decide, by decide⟩

theorem nodes_pos (v : QJsonValue) : 1 ≤ v.nodes := by
  cases v <;> simp [QJsonValue.nodes]

mutual
theorem parseValue_writeValue : ∀ (v : QJsonValue) (fuel : Nat) (rest : List Char),
    v.nodes ≤ fuel → startsWithDigit rest = false →
      parseValue fuel (writeValue v ++ rest) = some (v, rest)
  | .null, fuel, rest, hf, _ => by
    obtain ⟨f, rfl⟩ : ∃ f, fuel = f + 1 := ⟨fuel - 1, by simp [QJsonValue.nodes] at hf; omega⟩
    rw [writeValue]
    exact parseValue_null f rest
  | .bool b, fuel, rest, hf, _ => by
    obtain ⟨f, rfl⟩ : ∃ f, fuel = f + 1 := ⟨fuel - 1, by simp [QJsonValue.nodes] at hf; omega⟩
    rw [writeValue]
    exact parseValue_bool f b rest
  | .number n, fuel, rest, hf, hrest => by
    obtain ⟨f, rfl⟩ : ∃ f, fuel = f + 1 := ⟨fuel - 1, by simp [QJsonValue.nodes] at hf; omega⟩
    rw [writeValue]
    exact parseValue_number f n rest hrest
  | .string s, fuel, rest, hf, _ => by
    obtain ⟨f, rfl⟩ : ∃ f, fuel = f + 1 := ⟨fuel - 1, by simp [QJsonValue.nodes] at hf; omega⟩
    rw [writeValue]
    exact parseValue_string f s rest
  | .array .nil, fuel, rest, hf, _ => by
    obtain ⟨f, rfl⟩ : ∃ f, fuel = f + 1 := ⟨fuel - 1, by simp [QJsonValue.nodes] at hf; omega⟩
    rw [writeValue, writeArray]
    exact parseValue_array_nil f rest
  | .array (.cons v t), fuel, rest, hf, _ => by
    obtain ⟨f, rfl⟩ : ∃ f, fuel = f + 1 := ⟨fuel - 1, by simp [QJsonValue.nodes] at hf; omega⟩
    have hf2 : (QJsonArray.cons v t).nodes ≤ f := by
      simp only [QJsonValue.nodes] at hf; omega
    have ih := parseElements_writeArray (.cons v t) f rest hf2 (by simp)
    obtain ⟨d, tl, hd, hne⟩ : ∃ d tl, writeArray (.cons v t) ++ rest = d :: tl ∧ d ≠ ']' := by
      obtain ⟨c, tl, hc, h1, _⟩ := writeValue_head v
      cases t with
      | nil => exact ⟨c, _, by rw [writeArray, hc]; rfl, h1⟩
      | cons w t2 => exact ⟨c, _, by rw [writeArray, hc]; rfl, h1⟩
    rw [writeValue, List.cons_append, hd, parseValue_array f d tl hne, ← hd, ih]
    rfl
  | .object .nil, fuel, rest, hf, _ => by
    obtain ⟨f, rfl⟩ : ∃ f, fuel = f + 1 := ⟨fuel - 1, by simp [QJsonValue.nodes] at hf; omega⟩
    rw [writeValue, writeObject]
    exact parseValue_object_nil f rest
  | .object (.cons k v t), fuel, rest, hf, _ => by
    obtain ⟨f, rfl⟩ : ∃ f, fuel = f + 1 := ⟨fuel - 1, by simp [QJsonValue.nodes] at hf; omega⟩
    have hf2 : (QJsonObject.cons k v t).nodes ≤ f := by
      simp only [QJsonValue.nodes] at hf; omega
    have ih := parseMembers_writeObject (.cons k v t) f rest hf2 (by simp)
    obtain ⟨tl, hd⟩ : ∃ tl, writeObject (.cons k v t) ++ rest = '"' :: tl := by
      cases t with
      | nil => exact ⟨_, by rw [writeObject, writeString]; rfl⟩
      | cons k2 v2 t2 => exact ⟨_, by rw [writeObject, writeString]; rfl⟩
    rw [writeValue, List.cons_append, hd, parseValue_object f '"' tl (by decide), ← hd, ih]
    rfl
theorem parseElements_writeArray : ∀ (a : QJsonArray) (fuel : Nat) (rest : List Char),
    a.nodes ≤ fuel → a ≠ .nil →
      parseElements fuel (writeArray a ++ rest) = some (a, rest)
  | .nil, _, _, _, hne => absurd rfl hne
  | .cons v .nil, fuel, rest, hf, _ => by
    obtain ⟨f, rfl⟩ : ∃ f, fuel = f + 1 := ⟨fuel - 1, by simp [QJsonArray.nodes] at hf; omega⟩
    have hv : v.nodes ≤ f := by simp only [QJsonArray.nodes] at hf; omega
    have ih := parseValue_writeValue v f (']' :: rest) hv rfl
    rw [writeArray, List.append_assoc]
    exact parseElements_last f _ rest v ih
  | .cons v (.cons w t), fuel, rest, hf, _ => by
    obtain ⟨f, rfl⟩ : ∃ f, fuel = f + 1 := ⟨fuel - 1, by simp [QJsonArray.nodes] at hf; omega⟩
    have hv : v.nodes ≤ f := by simp only [QJsonArray.nodes] at hf; omega
    have ht : (QJsonArray.cons w t).nodes ≤ f := by simp only [QJsonArray.nodes] at hf ⊢; omega
    have ih := parseValue_writeValue v f (',' :: (writeArray (.cons w t) ++ rest)) hv rfl
    have ih2 := parseElements_writeArray (.cons w t) f rest ht (by simp)
    rw [writeArray, List.append_assoc]
    exact parseElements_more f _ _ rest v _ ih ih2
theorem parseMembers_writeObject : ∀ (o : QJsonObject) (fuel : Nat) (rest : List Char),
    o.nodes ≤ fuel → o ≠ .nil →
      parseMembers fuel (writeObject o ++ rest) = some (o, rest)
  | .nil, _, _, _, hne => absurd rfl hne
  | .cons k v .nil, fuel, rest, hf, _ => by
    obtain ⟨f, rfl⟩ : ∃ f, fuel = f + 1 := ⟨fuel - 1, by simp [QJsonObject.nodes] at hf; omega⟩
    have hv : v.nodes ≤ f := by simp only [QJsonObject.nodes] at hf; omega
    have ih := parseValue_writeValue v f ('}' :: rest) hv rfl
    have hk := parseString_escapeString k.data (':' :: (writeValue v ++ '}' :: rest))
    rw [writeObject]
    show parseMembers (f + 1)
      ('"' :: (((escapeString k.data ++ ['"']) ++ ':' :: (writeValue v ++ ['}'])) ++ rest)) = _
    have hshape : ((escapeString k.data ++ ['"']) ++ ':' :: (writeValue v ++ ['}'])) ++ rest =
        escapeString k.data ++ '"' :: ':' :: (writeValue v ++ '}' :: rest) := by
      simp
    rw [hshape]
    exact parseMembers_last f _ _ rest k.data v hk ih
  | .cons k v (.cons k2 v2 t), fuel, rest, hf, _ => by
    obtain ⟨f, rfl⟩ : ∃ f, fuel = f + 1 := ⟨fuel - 1, by simp [QJsonObject.nodes] at hf; omega⟩
    have hv : v.nodes ≤ f := by simp only [QJsonObject.nodes] at hf; omega
    have ht : (QJsonObject.cons k2 v2 t).nodes ≤ f := by
      simp only [QJsonObject.nodes] at hf ⊢; omega
    have ih := parseValue_writeValue v f
      (',' :: (writeObject (.cons k2 v2 t) ++ rest)) hv rfl
    have ih2 := parseMembers_writeObject (.cons k2 v2 t) f rest ht (by simp)
    have hk := parseString_escapeString k.data
      (':' :: (writeValue v ++ ',' :: (writeObject (.cons k2 v2 t) ++ rest)))
    rw [writeObject]
    show parseMembers (f + 1)
      ('"' :: (((escapeString k.data ++ ['"']) ++
        ':' :: (writeValue v ++ ',' :: writeObject (.cons k2 v2 t))) ++ rest)) = _
    have hshape : ((escapeString k.data ++ ['"']) ++
        ':' :: (writeValue v ++ ',' :: writeObject (.cons k2 v2 t))) ++ rest =
        escapeString k.data ++ '"' :: ':' ::
          (writeValue v ++ ',' :: (writeObject (.cons k2 v2 t) ++ rest)) := by
      simp
    rw [hshape]
    exact parseMembers_more f _ _ _ rest k.data v _ hk ih ih2
end

mutual
theorem nodes_le_length_value : ∀ v : QJsonValue, v.nodes ≤ (writeValue v).length
  | .null => by rw [writeValue]; decide
  | .bool b => by cases b <;> (rw [writeValue]; decide)
  | .number n => by
    obtain ⟨c, tl, hc, -, -⟩ := writeValue_head (.number n)
    rw [hc]
    simp [QJsonValue.nodes]
  | .string s => by
    rw [writeValue, writeString]
    simp [QJsonValue.nodes]
  | .array a => by
    have := nodes_le_length_array a
    rw [writeValue]
    simp only [QJsonValue.nodes, List.length_cons]
    omega
  | .object o => by
    have := nodes_le_length_object o
    rw [writeValue]
    simp only [QJsonValue.nodes, List.length_cons]
    omega
theorem nodes_le_length_array : ∀ a : QJsonArray, a.nodes ≤ (writeArray a).length
  | .nil => by simp [QJsonArray.nodes]
  | .cons v .nil => by
    have := nodes_le_length_value v
    rw [writeArray]
    simp only [QJsonArray.nodes, List.length_append, List.length_cons, List.length_nil]
    omega
  | .cons v (.cons w t) => by
    have h1 := nodes_le_length_value v
    have h2 := nodes_le_length_array (.cons w t)
    rw [writeArray]
    simp only [List.length_append, List.length_cons]
    rw [QJsonArray.nodes]
    omega
theorem nodes_le_length_object : ∀ o : QJsonObject, o.nodes ≤ (writeObject o).length
  | .nil => by simp [QJsonObject.nodes]
  | .cons k v .nil => by
    have := nodes_le_length_value v
    rw [writeObject]
    simp only [QJsonObject.nodes, List.length_append, List.length_cons, List.length_nil]
    omega
  | .cons k v (.cons k2 v2 t) => by
    have h1 := nodes_le_length_value v
    have h2 := nodes_le_length_object (.cons k2 v2 t)
    rw [writeObject]
    simp only [List.length_append, List.length_cons]
    rw [QJsonObject.nodes]
    omega
end

/-- Parsing the compact text of an object gives the object back. -/
theorem qjson_fromJson_toJson (o : QJsonObject) : qjson.fromJson (qjson.toJson o) = some o := by
  have hlen := nodes_le_length_value (.object o)
  have h := parseValue_writeValue (.object o) ((writeValue (.object o)).length + 1) []
    (by omega) rfl
  rw [List.append_nil] at h
  show (match parseValue ((writeValue (.object o)).length + 1) (writeValue (.object o)) with
    | some (.object o, []) => some o
    | _ => none) = some o
  rw [h]

/-- Every document of the reference codec is serializable. -/
theorem qjson_serializable (o : QJsonObject) : Serializable qjson o := by
  unfold Serializable
  rw [qjson_fromJson_toJson]
  rfl

/-! ## Lemmas on the `users` table -/

theorem whereUsername_eq_nil {users : List UserRow} {n : String}
    (h : ∀ r ∈ users, r.username ≠ n) : whereUsername users n = [] := by
  unfold whereUsername
  rw [List.filter_eq_nil_iff]
  intro r hr
  simpa using h r hr

theorem insertUser_of_username_taken {users : List UserRow} {n : String}
    (h : ∃ r ∈ users, r.username = n) (id pw : String) (now : Nat) :
    insertUser users id n pw now = none := by
  unfold insertUser
  have hany : users.any (fun r => decide (r.username = n)) = true := by
    rw [List.any_eq_true]
    obtain ⟨r, hr, hn⟩ := h
    exact ⟨r, hr, by simpa using hn⟩
  rw [hany]
  split <;> rfl

theorem insertUser_of_fresh {users : List UserRow} {id n : String}
    (hid : ∀ r ∈ users, r.id ≠ id) (hn : ∀ r ∈ users, r.username ≠ n) (pw : String) (now : Nat) :
    insertUser users id n pw now = some (users ++ [⟨id, n, pw, now⟩]) := by
  unfold insertUser
  have h1 : users.any (fun r => decide (r.id = id)) = false := by
    rw [List.any_eq_false]
    intro r hr
    simpa using hid r hr
  have h2 : users.any (fun r => decide (r.username = n)) = false := by
    rw [List.any_eq_false]
    intro r hr
    simpa using hn r hr
  simp [h1, h2]

theorem insertUser_eq_some {users users2 : List UserRow} {id n pw : String} {now : Nat}
    (h : insertUser users id n pw now = some users2) :
    (∀ r ∈ users, r.id ≠ id) ∧ (∀ r ∈ users, r.username ≠ n) ∧
      users2 = users ++ [⟨id, n, pw, now⟩] := by
  unfold insertUser at h
  split at h
  · exact absurd h (by simp)
  · split at h
    · exact absurd h (by simp)
    · rename_i h1 h2
      rw [Bool.not_eq_true, List.any_eq_false] at h1 h2
      refine ⟨fun r hr => by simpa using h1 r hr, fun r hr => by simpa using h2 r hr, ?_⟩
      exact (Option.some.inj h).symm

theorem whereUsername_append (users : List UserRow) (row : UserRow) (n : String) :
    whereUsername (users ++ [row]) n =
      whereUsername users n ++ (if row.username = n then [row] else []) := by
  unfold whereUsername
  rw [List.filter_append]
  by_cases h : row.username = n <;> simp [List.filter, h]

theorem length_le_one_of_nodup_of_const {α : Type} {l : List α} {a : α}
    (hnd : l.Nodup) (hc : ∀ x ∈ l, x = a) : l.length ≤ 1 := by
  match l, hnd, hc with
  | [], _, _ => simp
  | [_], _, _ => simp
  | x :: y :: t, hnd, hc =>
    exfalso
    have hx : x = a := hc x (by simp)
    have hy : y = a := hc y (by simp)
    rw [List.nodup_cons] at hnd
    exact hnd.1 (by rw [hx, hy]; simp)

theorem whereUsername_length_le_one {users : List UserRow}
    (hnd : (users.map fun r => r.username).Nodup) (n : String) :
    (whereUsername users n).length ≤ 1 := by
  have hsub : ((whereUsername users n).map fun r => r.username).Nodup :=
    hnd.sublist (List.Sublist.map _ (List.filter_sublist users))
  have hc : ∀ x ∈ (whereUsername users n).map (fun r => r.username), x = n := by
    intro x hx
    rw [List.mem_map] at hx
    obtain ⟨r, hr, rfl⟩ := hx
    unfold whereUsername at hr
    simpa using (List.mem_filter.mp hr).2
  simpa using length_le_one_of_nodup_of_const hsub hc

/-- A call either leaves table users as it is or adds one row whose id and
username were both unused. -/
theorem step_users {Doc : Type} (c : JsonCodec Doc) (db : Database) (op : Op Doc) :
    (step c db op).users = db.users ∨
      ∃ row : UserRow, (∀ r ∈ db.users, r.id ≠ row.id) ∧
        (∀ r ∈ db.users, r.username ≠ row.username) ∧
        (step c db op).users = db.users ++ [row] := by
  cases op with
  | createUser uuid n pw now =>
    simp only [step, createUser]
    cases h : insertUser db.users uuid n pw now with
    | none => exact Or.inl rfl
    | some users2 =>
      obtain ⟨h1, h2, h3⟩ := insertUser_eq_some h
      exact Or.inr ⟨⟨uuid, n, pw, now⟩, h1, h2, h3⟩
  | saveUserData u k d now =>
    left
    simp only [step, saveUserData]
    cases upsertUserData db.user_data u k (c.toJson d) (c.toJson d) now <;> rfl
  | deleteUserData u k =>
    left
    simp only [step, deleteUserData]
    cases deleteWhereKey db.user_data u k <;> rfl
  | userExists _ => exact Or.inl rfl
  | getUserPasswordHash _ => exact Or.inl rfl
  | getUserId _ => exact Or.inl rfl
  | getUserData _ _ => exact Or.inl rfl
  | getAllUserData _ => exact Or.inl rfl

theorem step_usernames_nodup {Doc : Type} (c : JsonCodec Doc) (db : Database) (op : Op Doc)
    (hnd : (db.users.map fun r => r.username).Nodup) :
    ((step c db op).users.map fun r => r.username).Nodup := by
  rcases step_users c db op with h | ⟨row, -, hn, h⟩
  · rw [h]; exact hnd
  · rw [h, List.map_append, List.nodup_append]
    refine ⟨hnd, by simp, ?_⟩
    intro x hx hx2
    rw [List.mem_map] at hx
    obtain ⟨r, hr, rfl⟩ := hx
    simp only [List.map_cons, List.map_nil, List.mem_singleton] at hx2
    exact hn r hr hx2

theorem exec_usernames_nodup {Doc : Type} (c : JsonCodec Doc) (ops : List (Op Doc))
    (db : Database) (hnd : (db.users.map fun r => r.username).Nodup) :
    ((exec c ops db).users.map fun r => r.username).Nodup := by
  induction ops generalizing db with
  | nil => exact hnd
  | cons op ops ih => exact ih _ (step_usernames_nodup c db op hnd)

theorem step_whereUsername {Doc : Type} (c : JsonCodec Doc) (db : Database) (op : Op Doc)
    (n : String) (row : UserRow) (h : whereUsername db.users n = [row]) :
    whereUsername (step c db op).users n = [row] := by
  rcases step_users c db op with h2 | ⟨row2, -, hn, h2⟩
  · rw [h2]; exact h
  · rw [h2, whereUsername_append, h]
    have hrow : row ∈ whereUsername db.users n := by rw [h]; simp
    unfold whereUsername at hrow
    have hmem := List.mem_filter.mp hrow
    have hne : row2.username ≠ n := by
      intro he
      apply hn row hmem.1
      rw [he]
      simpa using hmem.2
    simp [hne]

theorem exec_whereUsername {Doc : Type} (c : JsonCodec Doc) (ops : List (Op Doc))
    (db : Database) (n : String) (row : UserRow) (h : whereUsername db.users n = [row]) :
    whereUsername (exec c ops db).users n = [row] := by
  induction ops generalizing db with
  | nil => exact h
  | cons op ops ih => exact ih _ (step_whereUsername c db op n row h)

theorem toInt_pos_iff_of_le_one {n : Nat} (h : n ≤ 1) : toInt n > 0 ↔ n = 1 := by
  interval_cases n <;> simp [toInt]

/-! ## Lemmas on the `user_data` table -/

theorem matchesKey_iff {u k : String} {r : UserDataRow} :
    matchesKey u k r = true ↔ r.user_id = u ∧ r.data_key = k := by
  simp [matchesKey]

theorem any_matchesKey_eq_false_iff {rows : List UserDataRow} {u k : String} :
    rows.any (matchesKey u k) = false ↔ rows.filter (matchesKey u k) = [] := by
  rw [List.any_eq_false, List.filter_eq_nil_iff]

/-- The upsert statement never fails. -/
theorem upsertUserData_isSome (rows : List UserDataRow) (u k v v2 : String) (now : Nat) :
    ∃ rows2, upsertUserData rows u k v v2 now = some rows2 := by
  unfold upsertUserData
  split <;> exact ⟨_, rfl⟩

theorem filter_same_map_set (rows : List UserDataRow) (u k v2 : String) (now : Nat) :
    (rows.map fun r =>
        if matchesKey u k r then { r with data_value := v2, updated_at := now } else r).filter
        (matchesKey u k) =
      (rows.filter (matchesKey u k)).map
        fun r => { r with data_value := v2, updated_at := now } := by
  induction rows with
  | nil => rfl
  | cons r rows ih =>
    by_cases hr : matchesKey u k r = true
    · have hr2 : matchesKey u k { r with data_value := v2, updated_at := now } = true := by
        rw [matchesKey_iff] at hr ⊢; exact hr
      rw [List.map_cons, if_pos hr, List.filter_cons_of_pos hr2, List.filter_cons_of_pos hr,
        List.map_cons, ih]
    · rw [List.map_cons, if_neg hr, List.filter_cons_of_neg hr, List.filter_cons_of_neg hr, ih]

theorem filter_other_map_set (rows : List UserDataRow) (u k v2 : String) (now : Nat)
    (p : UserDataRow → Bool)
    (hp : ∀ r, matchesKey u k r = true →
      p r = false ∧ p { r with data_value := v2, updated_at := now } = false) :
    (rows.map fun r =>
        if matchesKey u k r then { r with data_value := v2, updated_at := now } else r).filter p =
      rows.filter p := by
  induction rows with
  | nil => rfl
  | cons r rows ih =>
    by_cases hr : matchesKey u k r = true
    · obtain ⟨h1, h2⟩ := hp r hr
      rw [List.map_cons, if_pos hr, List.filter_cons_of_neg (by simp [h2]),
        List.filter_cons_of_neg (by simp [h1]), ih]
    · rw [List.map_cons, if_neg hr, List.filter_cons, List.filter_cons, ih]

/-- The rows under the written pair after the upsert: a new row when there was
none, otherwise the old rows with data_value and updated_at replaced. -/
theorem filter_upsert_same {rows rows2 : List UserDataRow} {u k v v2 : String} {now : Nat}
    (h : upsertUserData rows u k v v2 now = some rows2) :
    rows2.filter (matchesKey u k) =
      if rows.filter (matchesKey u k) = [] then [⟨u, k, v, now, now⟩]
      else (rows.filter (matchesKey u k)).map
        fun r => { r with data_value := v2, updated_at := now } := by
  unfold upsertUserData at h
  by_cases hany : rows.any (matchesKey u k) = true
  · rw [if_pos hany] at h
    have hne : rows.filter (matchesKey u k) ≠ [] := by
      intro h0
      rw [← any_matchesKey_eq_false_iff] at h0
      rw [h0] at hany
      exact absurd hany (by simp)
    rw [if_neg hne, ← Option.some.inj h]
    exact filter_same_map_set rows u k v2 now
  · rw [if_neg hany] at h
    have h0 : rows.filter (matchesKey u k) = [] := by
      rw [← any_matchesKey_eq_false_iff]; simpa using hany
    rw [if_pos h0, ← Option.some.inj h, List.filter_append, h0]
    simp [List.filter, matchesKey]

/-- The rows selected by a predicate that holds of no row under the written
pair are not touched by the upsert. -/
theorem filter_upsert_of_disjoint {rows rows2 : List UserDataRow} {u k v v2 : String} {now : Nat}
    (h : upsertUserData rows u k v v2 now = some rows2) (p : UserDataRow → Bool)
    (hp : ∀ r, matchesKey u k r = true → p r = false) :
    rows2.filter p = rows.filter p := by
  unfold upsertUserData at h
  by_cases hany : rows.any (matchesKey u k) = true
  · rw [if_pos hany] at h
    rw [← Option.some.inj h]
    apply filter_other_map_set
    intro r hr
    refine ⟨hp r hr, hp _ ?_⟩
    rw [matchesKey_iff] at hr ⊢; exact hr
  · rw [if_neg hany] at h
    have hnew : p ⟨u, k, v, now, now⟩ = false := hp _ (by simp [matchesKey])
    rw [← Option.some.inj h, List.filter_append]
    simp [List.filter, hnew]

/-- The rows under any other pair are not touched by the upsert. -/
theorem filter_upsert_other {rows rows2 : List UserDataRow} {u k v v2 : String} {now : Nat}
    (h : upsertUserData rows u k v v2 now = some rows2) {u2 k2 : String}
    (hne : ¬ (u = u2 ∧ k = k2)) :
    rows2.filter (matchesKey u2 k2) = rows.filter (matchesKey u2 k2) := by
  apply filter_upsert_of_disjoint h
  intro r hr
  rw [← Bool.not_eq_true, matchesKey_iff]
  rw [matchesKey_iff] at hr
  rintro ⟨h1, h2⟩
  exact hne ⟨hr.1.symm.trans h1, hr.2.symm.trans h2⟩

/-- The rows of one user after the upsert for another user are the same. -/
theorem filter_user_upsert_other {rows rows2 : List UserDataRow} {u k v v2 : String} {now : Nat}
    (h : upsertUserData rows u k v v2 now = some rows2) {u2 : String} (hne : u ≠ u2) :
    rows2.filter (fun r => decide (r.user_id = u2)) =
      rows.filter (fun r => decide (r.user_id = u2)) := by
  apply filter_upsert_of_disjoint h
  intro r hr
  rw [matchesKey_iff] at hr
  simp only [decide_eq_false_iff_not]
  rw [hr.1]; exact hne

theorem filter_delete_same (rows : List UserDataRow) (u k : String) :
    (rows.filter fun r => !matchesKey u k r).filter (matchesKey u k) = [] := by
  rw [List.filter_eq_nil_iff]
  intro r hr
  have := (List.mem_filter.mp hr).2
  simpa using this

theorem filter_delete_other (rows : List UserDataRow) {u k u2 k2 : String}
    (hne : ¬ (u = u2 ∧ k = k2)) :
    (rows.filter fun r => !matchesKey u k r).filter (matchesKey u2 k2) =
      rows.filter (matchesKey u2 k2) := by
  rw [List.filter_filter]
  apply List.filter_congr
  intro r _
  by_cases hr : matchesKey u2 k2 r = true
  · have : matchesKey u k r = false := by
      rw [← Bool.not_eq_true, matchesKey_iff]
      rw [matchesKey_iff] at hr
      rintro ⟨h1, h2⟩
      exact hne ⟨h1.symm.trans hr.1, h2.symm.trans hr.2⟩
    simp [hr, this]
  · simp [hr]

theorem filter_delete_absent {rows : List UserDataRow} {u k : String}
    (h : rows.filter (matchesKey u k) = []) :
    (rows.filter fun r => !matchesKey u k r) = rows := by
  rw [List.filter_eq_self]
  rw [List.filter_eq_nil_iff] at h
  intro r hr
  simpa using h r hr

/-! ## The table against the history of calls -/

theorem lastSavedFrom_cons {Doc : Type} (u k : String) (prev : Option Doc) (op : Op Doc)
    (ops : List (Op Doc)) :
    lastSavedFrom u k prev (op :: ops) = lastSavedFrom u k (lastSavedFrom u k prev [op]) ops := by
  cases op <;> rfl

theorem lastSavedFrom_append {Doc : Type} (u k : String) (prev : Option Doc)
    (ops ops2 : List (Op Doc)) :
    lastSavedFrom u k prev (ops ++ ops2) = lastSavedFrom u k (lastSavedFrom u k prev ops) ops2 := by
  induction ops generalizing prev with
  | nil => rfl
  | cons op ops ih =>
    rw [List.cons_append, lastSavedFrom_cons, ih, ← lastSavedFrom_cons]

theorem lastSavedFrom_untouched {Doc : Type} (u k : String) (prev : Option Doc)
    (ops : List (Op Doc)) (h : ∀ op ∈ ops, touches u k op = false) :
    lastSavedFrom u k prev ops = prev := by
  induction ops generalizing prev with
  | nil => rfl
  | cons op ops ih =>
    have hop := h op (by simp)
    have hrest : ∀ op2 ∈ ops, touches u k op2 = false := fun op2 h2 => h op2 (by simp [h2])
    cases op with
    | saveUserData u0 k0 D now =>
      simp only [touches, decide_eq_false_iff_not] at hop
      simp only [lastSavedFrom, if_neg hop]
      exact ih prev hrest
    | deleteUserData u0 k0 =>
      simp only [touches, decide_eq_false_iff_not] at hop
      simp only [lastSavedFrom, if_neg hop]
      exact ih prev hrest
    | createUser _ _ _ _ => exact ih prev hrest
    | userExists _ => exact ih prev hrest
    | getUserPasswordHash _ => exact ih prev hrest
    | getUserId _ => exact ih prev hrest
    | getUserData _ _ => exact ih prev hrest
    | getAllUserData _ => exact ih prev hrest

theorem lastSavedFrom_save_then_untouched {Doc : Type} (u k : String) (prev : Option Doc)
    (pre post : List (Op Doc)) (D : Doc) (now : Nat)
    (h : ∀ op ∈ post, touches u k op = false) :
    lastSavedFrom u k prev (pre ++ Op.saveUserData u k D now :: post) = some D := by
  rw [lastSavedFrom_append]
  simp only [lastSavedFrom, and_self, if_true]
  exact lastSavedFrom_untouched u k _ post h

theorem lastSavedFrom_eq_some {Doc : Type} (u k : String) (prev : Option Doc)
    (ops : List (Op Doc)) (D : Doc) (h : lastSavedFrom u k prev ops = some D) :
    (prev = some D ∧ ∀ op ∈ ops, touches u k op = false) ∨
      ∃ pre post now, ops = pre ++ Op.saveUserData u k D now :: post ∧
        ∀ op ∈ post, touches u k op = false := by
  induction ops generalizing prev with
  | nil => exact Or.inl ⟨h, by simp⟩
  | cons op ops ih =>
    rw [lastSavedFrom_cons] at h
    rcases ih _ h with ⟨hprev, hun⟩ | ⟨pre, post, now, hops, hun⟩
    · cases op with
      | saveUserData u0 k0 D0 now =>
        by_cases heq : u0 = u ∧ k0 = k
        · simp only [lastSavedFrom, if_pos heq] at hprev
          obtain ⟨rfl, rfl⟩ := heq
          right
          refine ⟨[], ops, now, ?_, hun⟩
          rw [Option.some.inj hprev]
          rfl
        · simp only [lastSavedFrom, if_neg heq] at hprev
          left
          refine ⟨hprev, ?_⟩
          intro op hop
          rcases List.mem_cons.mp hop with rfl | hop
          · simp [touches, heq]
          · exact hun op hop
      | deleteUserData u0 k0 =>
        by_cases heq : u0 = u ∧ k0 = k
        · simp only [lastSavedFrom, if_pos heq] at hprev
          exact absurd hprev (by simp)
        · simp only [lastSavedFrom, if_neg heq] at hprev
          left
          refine ⟨hprev, ?_⟩
          intro op hop
          rcases List.mem_cons.mp hop with rfl | hop
          · simp [touches, heq]
          · exact hun op hop
      | createUser _ _ _ _ =>
        exact Or.inl ⟨hprev, fun op hop => by
          rcases List.mem_cons.mp hop with rfl | hop
          · rfl
          · exact hun op hop⟩
      | userExists _ =>
        exact Or.inl ⟨hprev, fun op hop => by
          rcases List.mem_cons.mp hop with rfl | hop
          · rfl
          · exact hun op hop⟩
      | getUserPasswordHash _ =>
        exact Or.inl ⟨hprev, fun op hop => by
          rcases List.mem_cons.mp hop with rfl | hop
          · rfl
          · exact hun op hop⟩
      | getUserId _ =>
        exact Or.inl ⟨hprev, fun op hop => by
          rcases List.mem_cons.mp hop with rfl | hop
          · rfl
          · exact hun op hop⟩
      | getUserData _ _ =>
        exact Or.inl ⟨hprev, fun op hop => by
          rcases List.mem_cons.mp hop with rfl | hop
          · rfl
          · exact hun op hop⟩
      | getAllUserData _ =>
        exact Or.inl ⟨hprev, fun op hop => by
          rcases List.mem_cons.mp hop with rfl | hop
          · rfl
          · exact hun op hop⟩
    · right
      exact ⟨op :: pre, post, now, by rw [hops]; rfl, hun⟩

/-- The record lastSaved says what its name says: it is a document D exactly
when the history has a saveUserData(u, k, D) after which no call saved or
deleted the pair (u, k). -/
theorem lastSaved_eq_some_iff {Doc : Type} (ops : List (Op Doc)) (u k : String) (D : Doc) :
    lastSaved ops u k = some D ↔
      ∃ pre post now, ops = pre ++ Op.saveUserData u k D now :: post ∧
        ∀ op ∈ post, touches u k op = false := by
  constructor
  · intro h
    rcases lastSavedFrom_eq_some u k none ops D h with ⟨h0, -⟩ | h1
    · exact absurd h0 (by simp)
    · exact h1
  · rintro ⟨pre, post, now, rfl, hun⟩
    exact lastSavedFrom_save_then_untouched u k none pre post D now hun

theorem saveUserData_eq {Doc : Type} (c : JsonCodec Doc) (db : Database) (u k : String)
    (D : Doc) (now : Nat) :
    ∃ rows2, upsertUserData db.user_data u k (c.toJson D) (c.toJson D) now = some rows2 ∧
      saveUserData c db u k D now = (true, { db with user_data := rows2 }) := by
  obtain ⟨rows2, h⟩ := upsertUserData_isSome db.user_data u k (c.toJson D) (c.toJson D) now
  refine ⟨rows2, h, ?_⟩
  unfold saveUserData
  simp only [h]

theorem tracks_length_le_one {Doc : Type} {c : JsonCodec Doc} {rows : List UserDataRow}
    {g : String → String → Option Doc} (h : Tracks c rows g) (u k : String) :
    (rows.filter (matchesKey u k)).length ≤ 1 := by
  have := congrArg List.length (h u k)
  rw [List.length_map, List.length_map] at this
  rw [this]
  cases g u k <;> simp

theorem tracks_step {Doc : Type} (c : JsonCodec Doc) (db : Database) (op : Op Doc)
    (g : String → String → Option Doc) (h : Tracks c db.user_data g) :
    Tracks c (step c db op).user_data (fun u k => lastSavedFrom u k (g u k) [op]) := by
  cases op with
  | saveUserData u0 k0 D now =>
    obtain ⟨rows2, hup, hsave⟩ := saveUserData_eq c db u0 k0 D now
    intro u k
    simp only [step, hsave, lastSavedFrom]
    by_cases heq : u0 = u ∧ k0 = k
    · obtain ⟨rfl, rfl⟩ := heq
      rw [filter_upsert_same hup]
      simp only [and_self, if_true, Option.toList, List.map_cons, List.map_nil]
      split
      · rfl
      · rename_i hne
        have hlen := tracks_length_le_one h u0 k0
        match db.user_data.filter (matchesKey u0 k0), hne, hlen with
        | [], hne, _ => exact absurd rfl hne
        | [r], _, _ => rfl
        | _ :: _ :: _, _, hl => simp at hl
    · rw [filter_upsert_other hup heq, if_neg heq]
      exact h u k
  | deleteUserData u0 k0 =>
    intro u k
    simp only [step, deleteUserData, deleteWhereKey, lastSavedFrom]
    by_cases heq : u0 = u ∧ k0 = k
    · obtain ⟨rfl, rfl⟩ := heq
      rw [filter_delete_same]
      simp
    · rw [filter_delete_other _ heq, if_neg heq]
      exact h u k
  | createUser uuid n pw now =>
    intro u k
    simp only [step, createUser, lastSavedFrom]
    cases insertUser db.users uuid n pw now <;> exact h u k
  | userExists _ => exact h
  | getUserPasswordHash _ => exact h
  | getUserId _ => exact h
  | getUserData _ _ => exact h
  | getAllUserData _ => exact h

theorem tracks_exec {Doc : Type} (c : JsonCodec Doc) (ops : List (Op Doc)) (db : Database)
    (g : String → String → Option Doc) (h : Tracks c db.user_data g) :
    Tracks c (exec c ops db).user_data (fun u k => lastSavedFrom u k (g u k) ops) := by
  induction ops generalizing db g with
  | nil => exact h
  | cons op ops ih =>
    have := ih (step c db op) _ (tracks_step c db op g h)
    intro u k
    show _ = List.map c.toJson (lastSavedFrom u k (g u k) (op :: ops)).toList
    rw [lastSavedFrom_cons]
    exact this u k

theorem tracks_createTables {Doc : Type} (c : JsonCodec Doc) (ops : List (Op Doc)) :
    Tracks c (exec c ops createTables).user_data (lastSaved ops) :=
  tracks_exec c ops createTables (fun _ _ => none) (fun _ _ => rfl)

theorem filter_eq_singleton_of_tracks {Doc : Type} {c : JsonCodec Doc} {rows : List UserDataRow}
    {g : String → String → Option Doc} (h : Tracks c rows g) {u k : String} {D : Doc}
    (hg : g u k = some D) :
    ∃ r, rows.filter (matchesKey u k) = [r] ∧ r.data_value = c.toJson D := by
  have := h u k
  rw [hg] at this
  match hF : rows.filter (matchesKey u k), this with
  | [], h1 => simp [hF] at h1
  | [r], h1 =>
    refine ⟨r, rfl, ?_⟩
    simpa using h1
  | _ :: _ :: _, h1 => simp at h1

theorem getUserData_of_filter {Doc : Type} (c : JsonCodec Doc) (db : Database) {u k : String}
    {r : UserDataRow} {rest : List UserDataRow}
    (h : db.user_data.filter (matchesKey u k) = r :: rest) :
    getUserData c db u k = c.object (c.fromJson r.data_value) := by
  unfold getUserData
  rw [h]
  rfl

theorem getUserData_after_save {Doc : Type} (c : JsonCodec Doc) (db : Database) (u k : String)
    (D : Doc) (now : Nat) :
    (saveUserData c db u k D now).1 = true ∧
      getUserData c (saveUserData c db u k D now).2 u k = c.object (c.fromJson (c.toJson D)) := by
  obtain ⟨rows2, hup, hsave⟩ := saveUserData_eq c db u k D now
  rw [hsave]
  refine ⟨rfl, ?_⟩
  have hf := filter_upsert_same hup
  by_cases h0 : db.user_data.filter (matchesKey u k) = []
  · rw [if_pos h0] at hf
    exact getUserData_of_filter c { db with user_data := rows2 } hf
  · rw [if_neg h0] at hf
    cases hF : db.user_data.filter (matchesKey u k) with
    | nil => exact absurd hF h0
    | cons r rest =>
      rw [hF, List.map_cons] at hf
      exact getUserData_of_filter c { db with user_data := rows2 } hf

theorem keys_nodup_of_tracks {Doc : Type} {c : JsonCodec Doc} {rows : List UserDataRow}
    {g : String → String → Option Doc} (h : Tracks c rows g) (u : String) :
    ((rows.filter fun r => decide (r.user_id = u)).map fun r => r.data_key).Nodup := by
  rw [List.nodup_iff_count_le_one]
  intro k
  rw [List.count, List.countP_map, List.countP_eq_length_filter, List.filter_filter]
  have hcongr : rows.filter (fun r => ((fun x => x == k) ∘ fun r => r.data_key) r &&
      decide (r.user_id = u)) = rows.filter (matchesKey u k) := by
    apply List.filter_congr
    intro r _
    simp only [Function.comp, matchesKey, beq_iff_eq]
    rw [Bool.and_comm]
    congr 1
  rw [hcongr]
  exact tracks_length_le_one h u k

theorem mem_getAllUserData {Doc : Type} (c : JsonCodec Doc) (db : Database) (u : String)
    (item : DataItem Doc) (hitem : item ∈ getAllUserData c db u) :
    ∃ r ∈ db.user_data, r.user_id = u ∧ item.key = r.data_key ∧
      item.data = c.object (c.fromJson r.data_value) ∧
      item.created_at = r.created_at ∧ item.updated_at = r.updated_at := by
  unfold getAllUserData at hitem
  rw [List.mem_map] at hitem
  obtain ⟨r, hr, rfl⟩ := hitem
  have := List.mem_filter.mp hr
  exact ⟨r, this.1, by simpa using this.2, rfl, rfl, rfl, rfl⟩

theorem getAllUserData_keys_eq {Doc : Type} (c : JsonCodec Doc) (db : Database) (u : String) :
    (getAllUserData c db u).map (fun item => item.key) =
      (db.user_data.filter fun r => decide (r.user_id = u)).map fun r => r.data_key := by
  unfold getAllUserData
  rw [List.map_map]
  rfl

/-! ## Claims on the `users` table -/

/-- C1: in every database reached by a history of calls, when a row with
username n is stored, createUser(n, h2) returns false whatever the hash and the
generated id are and leaves the database as it was; afterwards the rows with
username n are exactly that one row, and getUserPasswordHash and getUserId
still return its hash and its id. -/
theorem createUser_existing_username {Doc : Type} (c : JsonCodec Doc) (ops : List (Op Doc))
    (row : UserRow) (hrow : row ∈ (exec c ops createTables).users)
    (uuid h2 : String) (now : Nat) :
    createUser (exec c ops createTables) uuid row.username h2 now
        = (false, exec c ops createTables) ∧
      whereUsername (createUser (exec c ops createTables) uuid row.username h2 now).2.users
        row.username = [row] ∧
      getUserPasswordHash (createUser (exec c ops createTables) uuid row.username h2 now).2
        row.username = row.password_hash ∧
      getUserId (createUser (exec c ops createTables) uuid row.username h2 now).2
        row.username = row.id := by
  have hret : createUser (exec c ops createTables) uuid row.username h2 now
      = (false, exec c ops createTables) := by
    unfold createUser
    simp only
    rw [insertUser_of_username_taken ⟨row, hrow, rfl⟩]
  have hnd : ((exec c ops createTables).users.map fun r => r.username).Nodup :=
    exec_usernames_nodup c ops createTables (by simp [createTables])
  have hlen := whereUsername_length_le_one hnd row.username
  have hmem : row ∈ whereUsername (exec c ops createTables).users row.username := by
    unfold whereUsername
    exact List.mem_filter.mpr ⟨hrow, by simp⟩
  have hone : whereUsername (exec c ops createTables).users row.username = [row] := by
    match hw : whereUsername (exec c ops createTables).users row.username, hlen, hmem with
    | [], _, hm => simp at hm
    | [x], _, hm => simp at hm; rw [hm]
    | _ :: _ :: _, hl, _ => simp at hl
  rw [hret]
  refine ⟨rfl, hone, ?_, ?_⟩
  · simp only [getUserPasswordHash, hone, List.map_cons, List.map_nil]
  · simp only [getUserId, hone, List.map_cons, List.map_nil]

/-- C2, as the code has it: when neither the username nor the generated id is
used by a stored row, createUser returns true and userExists(username) is true
afterwards. -/
theorem createUser_unused_username_fresh_id (db : Database) (uuid username passwordHash : String)
    (now : Nat) (hname : ∀ r ∈ db.users, r.username ≠ username)
    (hid : ∀ r ∈ db.users, r.id ≠ uuid) :
    (createUser db uuid username passwordHash now).1 = true ∧
      userExists (createUser db uuid username passwordHash now).2 username = true := by
  unfold createUser
  simp only
  rw [insertUser_of_fresh hid hname]
  refine ⟨rfl, ?_⟩
  simp only [userExists, whereUsername_append, whereUsername_eq_nil hname]
  simp [toInt]

/-- C2 as stated fails: with one stored user whose id is the text the generator
returns again, createUser on an unused username returns false and the username
still does not exist. -/
theorem createUser_unused_username_id_collision :
    (∀ r ∈ (createUser createTables uuidA "alice" "h1" 0).2.users, r.username ≠ "bob") ∧
      (createUser (createUser createTables uuidA "alice" "h1" 0).2
        uuidA "bob" "h2" 1).1 = false ∧
      userExists (createUser (createUser createTables uuidA "alice" "h1" 0).2
        uuidA "bob" "h2" 1).2 "bob" = false := by
  decide

/-- C3: after a createUser(username, passwordHash) that returned true,
getUserPasswordHash(username) is passwordHash and getUserId(username) is the id
generated in that call, and this stays so after any further sequence of calls. -/
theorem getters_after_createUser {Doc : Type} (c : JsonCodec Doc) (db db2 : Database)
    (uuid username passwordHash : String) (now : Nat)
    (hcreate : createUser db uuid username passwordHash now = (true, db2))
    (ops : List (Op Doc)) :
    getUserPasswordHash (exec c ops db2) username = passwordHash ∧
      getUserId (exec c ops db2) username = uuid := by
  unfold createUser at hcreate
  simp only at hcreate
  cases hins : insertUser db.users uuid username passwordHash now with
  | none => rw [hins] at hcreate; simp at hcreate
  | some users2 =>
    rw [hins] at hcreate
    obtain ⟨-, hname, husers⟩ := insertUser_eq_some hins
    have hdb2 : db2.users = db.users ++ [⟨uuid, username, passwordHash, now⟩] := by
      have := (Prod.mk.inj hcreate).2
      rw [← this, husers]
    have hone : whereUsername db2.users username = [⟨uuid, username, passwordHash, now⟩] := by
      rw [hdb2, whereUsername_append, whereUsername_eq_nil hname]
      simp
    have hlater := exec_whereUsername c ops db2 username _ hone
    constructor
    · simp only [getUserPasswordHash, hlater, List.map_cons, List.map_nil]
    · simp only [getUserId, hlater, List.map_cons, List.map_nil]

/-- C9: in every database reached by a history of calls, userExists(n) is true
exactly when a stored row has username n (equality of texts, so case matters),
and when no row has username n, userExists(n) is false and getUserPasswordHash(n)
and getUserId(n) are the empty string. -/
theorem userExists_iff_and_absent {Doc : Type} (c : JsonCodec Doc) (ops : List (Op Doc))
    (n : String) :
    (userExists (exec c ops createTables) n = true ↔
        ∃ r ∈ (exec c ops createTables).users, r.username = n) ∧
      ((∀ r ∈ (exec c ops createTables).users, r.username ≠ n) →
        userExists (exec c ops createTables) n = false ∧
        getUserPasswordHash (exec c ops createTables) n = "" ∧
        getUserId (exec c ops createTables) n = "") := by
  have hnd : ((exec c ops createTables).users.map fun r => r.username).Nodup :=
    exec_usernames_nodup c ops createTables (by simp [createTables])
  have hlen := whereUsername_length_le_one hnd n
  constructor
  · simp only [userExists, decide_eq_true_eq]
    rw [toInt_pos_iff_of_le_one hlen]
    constructor
    · intro h1
      have hne : whereUsername (exec c ops createTables).users n ≠ [] := by
        intro h0; rw [h0] at h1; simp at h1
      obtain ⟨r, hr⟩ := List.exists_mem_of_ne_nil _ hne
      unfold whereUsername at hr
      have := List.mem_filter.mp hr
      exact ⟨r, this.1, by simpa using this.2⟩
    · rintro ⟨r, hr, hn⟩
      have hmem : r ∈ whereUsername (exec c ops createTables).users n := by
        unfold whereUsername
        exact List.mem_filter.mpr ⟨hr, by simpa using hn⟩
      have hpos : 0 < (whereUsername (exec c ops createTables).users n).length :=
        List.length_pos_of_mem hmem
      omega
  · intro habs
    have h0 := whereUsername_eq_nil habs
    simp [userExists, getUserPasswordHash, getUserId, h0, toInt]

/-! ## Claims on the `user_data` table -/

/-- C4: for every database, user id, key and serializable document D,
saveUserData(u, k, D) returns true and the getUserData(u, k) right after it
returns D: what comes back is the parse of the compact text of D. -/
theorem saveUserData_getUserData_roundtrip {Doc : Type} (c : JsonCodec Doc) (db : Database)
    (u k : String) (D : Doc) (now : Nat) (hser : Serializable c D) :
    (saveUserData c db u k D now).1 = true ∧
      getUserData c (saveUserData c db u k D now).2 u k = D := by
  obtain ⟨h1, h2⟩ := getUserData_after_save c db u k D now
  exact ⟨h1, h2.trans hser⟩

/-- C7: deleteUserData(u, k) returns true; afterwards no row is left under
(u, k) and getUserData(u, k) is the empty object; the rows under every other
pair are as before; and when there was no row under (u, k) the database is
unchanged. -/
theorem deleteUserData_removes {Doc : Type} (c : JsonCodec Doc) (db : Database) (u k : String) :
    (deleteUserData db u k).1 = true ∧
      (deleteUserData db u k).2.user_data.filter (matchesKey u k) = [] ∧
      getUserData c (deleteUserData db u k).2 u k = c.emptyObject ∧
      (∀ u2 k2, ¬ (u = u2 ∧ k = k2) →
        (deleteUserData db u k).2.user_data.filter (matchesKey u2 k2) =
          db.user_data.filter (matchesKey u2 k2)) ∧
      (db.user_data.filter (matchesKey u k) = [] → (deleteUserData db u k).2 = db) := by
  simp only [deleteUserData, deleteWhereKey]
  refine ⟨trivial, filter_delete_same _ u k, ?_, ?_, ?_⟩
  · unfold getUserData
    simp only [filter_delete_same, List.map_nil]
  · intro u2 k2 hne
    exact filter_delete_other _ hne
  · intro h0
    rw [filter_delete_absent h0]

/-- C5: in every database reached by a history of calls, saveUserData(u, k, D1)
followed by saveUserData(u, k, D2) both return true and leave exactly one row
under (u, k); that row holds the text of D2 and has the created_at of the row
left by the first write (which is the clock reading of the first write when the
pair was new, and the created_at already stored otherwise). -/
theorem saveUserData_twice_upsert {Doc : Type} (c : JsonCodec Doc) (ops : List (Op Doc))
    (u k : String) (D1 D2 : Doc) (t1 t2 : Nat) :
    (saveUserData c (exec c ops createTables) u k D1 t1).1 = true ∧
      (saveUserData c (saveUserData c (exec c ops createTables) u k D1 t1).2 u k D2 t2).1 = true ∧
      ∃ r1 r2 : UserDataRow,
        (saveUserData c (exec c ops createTables) u k D1 t1).2.user_data.filter (matchesKey u k)
          = [r1] ∧
        (saveUserData c (saveUserData c (exec c ops createTables) u k D1 t1).2
          u k D2 t2).2.user_data.filter (matchesKey u k) = [r2] ∧
        r2.data_value = c.toJson D2 ∧
        r2.created_at = r1.created_at ∧
        r1.created_at =
          (((exec c ops createTables).user_data.filter (matchesKey u k)).head?.map
            fun r => r.created_at).getD t1 := by
  have htr := tracks_createTables c ops
  have hlen := tracks_length_le_one htr u k
  obtain ⟨rows1, hup1, hsave1⟩ := saveUserData_eq c (exec c ops createTables) u k D1 t1
  rw [hsave1]
  obtain ⟨rows2, hup2, hsave2⟩ :=
    saveUserData_eq c { exec c ops createTables with user_data := rows1 } u k D2 t2
  rw [hsave2]
  have hf1 := filter_upsert_same hup1
  have hf2 := filter_upsert_same hup2
  simp only at hf2 ⊢
  refine ⟨trivial, trivial, ?_⟩
  match hF : (exec c ops createTables).user_data.filter (matchesKey u k), hlen with
  | [], _ =>
    rw [hF, if_pos rfl] at hf1
    rw [hf1, if_neg (by simp)] at hf2
    exact ⟨_, _, hf1, hf2, rfl, rfl, rfl⟩
  | [r0], _ =>
    rw [hF, if_neg (by simp)] at hf1
    rw [hf1, if_neg (by simp)] at hf2
    exact ⟨_, _, hf1, hf2, rfl, rfl, rfl⟩
  | _ :: _ :: _, hl => simp at hl

/-- C6, as the code has it: after saveUserData(u, k, D1) run at clock reading
t1, getAllUserData(u) has an item with key k and every such item has updated_at
t1; after a following saveUserData(u, k, D2) run at clock reading t2 the same
holds with t2.  So the updated_at after the second write is the reading of the
second write: not earlier than the first one when the clock has not gone back
(t1 ≤ t2), and later only when the clock has advanced by a whole second. -/
theorem saveUserData_twice_updated_at {Doc : Type} (c : JsonCodec Doc) (db : Database)
    (u k : String) (D1 D2 : Doc) (t1 t2 : Nat) (hclock : t1 ≤ t2) :
    (∃ item ∈ getAllUserData c (saveUserData c db u k D1 t1).2 u, item.key = k) ∧
      (∃ item ∈ getAllUserData c
        (saveUserData c (saveUserData c db u k D1 t1).2 u k D2 t2).2 u, item.key = k) ∧
      ∀ item1 ∈ getAllUserData c (saveUserData c db u k D1 t1).2 u, item1.key = k →
        ∀ item2 ∈ getAllUserData c
          (saveUserData c (saveUserData c db u k D1 t1).2 u k D2 t2).2 u, item2.key = k →
          item1.updated_at = t1 ∧ item2.updated_at = t2 ∧
            item1.updated_at ≤ item2.updated_at := by
  have key : ∀ (db0 : Database) (D : Doc) (t : Nat),
      (∃ item ∈ getAllUserData c (saveUserData c db0 u k D t).2 u, item.key = k) ∧
      ∀ item ∈ getAllUserData c (saveUserData c db0 u k D t).2 u, item.key = k →
        item.updated_at = t := by
    intro db0 D t
    obtain ⟨rows1, hup, hsave⟩ := saveUserData_eq c db0 u k D t
    rw [hsave]
    have hf := filter_upsert_same hup
    have hall : ∀ r ∈ rows1.filter (matchesKey u k), r.updated_at = t := by
      rw [hf]
      split
      · intro r hr
        rw [List.mem_singleton] at hr
        rw [hr]
      · intro r hr
        rw [List.mem_map] at hr
        obtain ⟨r0, -, rfl⟩ := hr
        rfl
    have hne : rows1.filter (matchesKey u k) ≠ [] := by
      rw [hf]
      split
      · simp
      · rename_i h0
        simpa using h0
    constructor
    · obtain ⟨r, hr⟩ := List.exists_mem_of_ne_nil _ hne
      have hr2 := List.mem_filter.mp hr
      rw [matchesKey_iff] at hr2
      refine ⟨⟨r.data_key, c.object (c.fromJson r.data_value), r.created_at, r.updated_at⟩,
        ?_, hr2.2.2⟩
      unfold getAllUserData
      rw [List.mem_map]
      exact ⟨r, List.mem_filter.mpr ⟨hr2.1, by simpa using hr2.2.1⟩, rfl⟩
    · intro item hitem hk
      obtain ⟨r, hr, hu, hkey, -, -, hupd⟩ := mem_getAllUserData c _ u item hitem
      rw [hupd]
      apply hall
      exact List.mem_filter.mpr ⟨hr, by rw [matchesKey_iff]; exact ⟨hu, by rw [← hkey, hk]⟩⟩
  refine ⟨(key db D1 t1).1, (key _ D2 t2).1, ?_⟩
  intro item1 h1 hk1 item2 h2 hk2
  have e1 := (key db D1 t1).2 item1 h1 hk1
  have e2 := (key _ D2 t2).2 item2 h2 hk2
  exact ⟨e1, e2, by rw [e1, e2]; exact hclock⟩

/-- C6 as stated fails: two writes of the same pair within one second of the
clock leave updated_at as it was after the first write, not strictly later. -/
theorem saveUserData_twice_same_second :
    (getAllUserData qjson (saveUserData qjson createTables "u1" "prefs" sampleDoc 1700000000).2
        "u1").map (fun item => item.updated_at) = [1700000000] ∧
      (getAllUserData qjson
        (saveUserData qjson (saveUserData qjson createTables "u1" "prefs" sampleDoc 1700000000).2
          "u1" "prefs" sampleDoc2 1700000000).2 "u1").map (fun item => item.updated_at)
        = [1700000000] := by
  decide

/-- C8: in every database reached by a history of calls and for every user id
u, the keys of the items of getAllUserData(u) have no repetition; a key k is
among them exactly when the history has a saveUserData(u, k, D) after which no
call saved or deleted the pair (u, k), that is, k was saved for u and not
deleted since; every item comes from a row whose user_id is u; and the data of
the item with key k is the parse of the compact text of that last saved
document D, which is D itself when D is serializable. -/
theorem getAllUserData_exact_keys {Doc : Type} (c : JsonCodec Doc) (ops : List (Op Doc))
    (u : String) :
    ((getAllUserData c (exec c ops createTables) u).map fun item => item.key).Nodup ∧
      (∀ k, k ∈ (getAllUserData c (exec c ops createTables) u).map (fun item => item.key) ↔
        ∃ D pre post now, ops = pre ++ Op.saveUserData u k D now :: post ∧
          ∀ op ∈ post, touches u k op = false) ∧
      (∀ item ∈ getAllUserData c (exec c ops createTables) u,
        ∃ r ∈ (exec c ops createTables).user_data, r.user_id = u ∧ item.key = r.data_key) ∧
      (∀ item ∈ getAllUserData c (exec c ops createTables) u,
        ∀ D pre post now, ops = pre ++ Op.saveUserData u item.key D now :: post →
          (∀ op ∈ post, touches u item.key op = false) →
          item.data = c.object (c.fromJson (c.toJson D)) ∧
            (Serializable c D → item.data = D)) := by
  have htr := tracks_createTables c ops
  refine ⟨?_, ?_, ?_, ?_⟩
  · rw [getAllUserData_keys_eq]
    exact keys_nodup_of_tracks htr u
  · intro k
    rw [getAllUserData_keys_eq, List.mem_map]
    constructor
    · rintro ⟨r, hr, rfl⟩
      have hr2 := List.mem_filter.mp hr
      have hmem : r ∈ (exec c ops createTables).user_data.filter (matchesKey u r.data_key) :=
        List.mem_filter.mpr ⟨hr2.1, by rw [matchesKey_iff]; exact ⟨by simpa using hr2.2, rfl⟩⟩
      cases hg : lastSaved ops u r.data_key with
      | some D => exact ⟨D, (lastSaved_eq_some_iff ops u r.data_key D).mp hg⟩
      | none =>
        exfalso
        have h0 := htr u r.data_key
        rw [hg] at h0
        simp only [Option.toList, List.map_nil, List.map_eq_nil_iff] at h0
        rw [h0] at hmem
        simp at hmem
    · rintro ⟨D, hsaved⟩
      have hD := (lastSaved_eq_some_iff ops u k D).mpr hsaved
      obtain ⟨r, hr, -⟩ := filter_eq_singleton_of_tracks htr hD
      have hmem : r ∈ (exec c ops createTables).user_data.filter (matchesKey u k) := by
        rw [hr]; simp
      have hr2 := List.mem_filter.mp hmem
      rw [matchesKey_iff] at hr2
      exact ⟨r, List.mem_filter.mpr ⟨hr2.1, by simpa using hr2.2.1⟩, hr2.2.2⟩
  · intro item hitem
    obtain ⟨r, hr, hu, hkey, -⟩ := mem_getAllUserData c _ u item hitem
    exact ⟨r, hr, hu, hkey⟩
  · intro item hitem D pre post now hops hun
    have hD := (lastSaved_eq_some_iff ops u item.key D).mpr ⟨pre, post, now, hops, hun⟩
    obtain ⟨r, hr, hu, hkey, hdata, -⟩ := mem_getAllUserData c _ u item hitem
    obtain ⟨r2, hr2, hval⟩ := filter_eq_singleton_of_tracks htr hD
    have hmem : r ∈ (exec c ops createTables).user_data.filter (matchesKey u item.key) :=
      List.mem_filter.mpr ⟨hr, by rw [matchesKey_iff]; exact ⟨hu, hkey.symm⟩⟩
    rw [hr2, List.mem_singleton] at hmem
    have hd : item.data = c.object (c.fromJson (c.toJson D)) := by
      rw [hdata, hmem, hval]
    exact ⟨hd, fun hser => hd.trans hser⟩

/-- A batch of saves leaves under key k the document of the last call of the
batch that wrote k. -/
theorem after_saveCalls {Doc : Type} (c : JsonCodec Doc) (ops : List (Op Doc)) (u : String)
    (pre post : List (String × Doc × Nat)) (k : String) (D : Doc) (now : Nat)
    (hlast : ∀ call ∈ post, call.1 ≠ k) :
    (∃ r, (exec c (saveCalls u (pre ++ (k, D, now) :: post))
          (exec c ops createTables)).user_data.filter (matchesKey u k) = [r] ∧
        r.data_value = c.toJson D) ∧
      getUserData c (exec c (saveCalls u (pre ++ (k, D, now) :: post))
          (exec c ops createTables)) u k = c.object (c.fromJson (c.toJson D)) := by
  have htr := tracks_exec c (saveCalls u (pre ++ (k, D, now) :: post)) _ _
    (tracks_createTables c ops)
  have hg : lastSavedFrom u k (lastSaved ops u k) (saveCalls u (pre ++ (k, D, now) :: post))
      = some D := by
    unfold saveCalls
    rw [List.map_append, List.map_cons]
    apply lastSavedFrom_save_then_untouched
    intro op hop
    rw [List.mem_map] at hop
    obtain ⟨call, hcall, rfl⟩ := hop
    simp only [touches, true_and, decide_eq_false_iff_not]
    exact hlast call hcall
  obtain ⟨r, hr, hval⟩ := filter_eq_singleton_of_tracks htr hg
  refine ⟨⟨r, hr, hval⟩, ?_⟩
  rw [getUserData_of_filter c _ hr, hval]

/-- C10: for every user id u and every batch of saveUserData(u, k, D) calls run
one after the other, in whatever order, on a database reached by a history of
calls: every call returns true; for the last call (k, D) of the batch that
wrote k there is afterwards exactly one row under (u, k), it holds the text of
D, and getUserData(u, k) is the parse of that text, which is D when D is
serializable; and when the keys of the batch are pairwise distinct this holds
for every call (k, D) of the batch in every order of the batch. -/
theorem saveUserData_no_lost_update {Doc : Type} (c : JsonCodec Doc) (ops : List (Op Doc))
    (u : String) (calls : List (String × Doc × Nat)) :
    (∀ (db : Database) (k : String) (D : Doc) (now : Nat),
        (saveUserData c db u k D now).1 = true) ∧
      (∀ pre post k D now, calls = pre ++ (k, D, now) :: post →
        (∀ call ∈ post, call.1 ≠ k) →
        (∃ r, (exec c (saveCalls u calls) (exec c ops createTables)).user_data.filter
            (matchesKey u k) = [r] ∧ r.data_value = c.toJson D) ∧
          getUserData c (exec c (saveCalls u calls) (exec c ops createTables)) u k
            = c.object (c.fromJson (c.toJson D)) ∧
          (Serializable c D →
            getUserData c (exec c (saveCalls u calls) (exec c ops createTables)) u k = D)) ∧
      ((calls.map fun call => call.1).Nodup →
        ∀ order : List (String × Doc × Nat), order.Perm calls →
          ∀ k D now, (k, D, now) ∈ calls →
            (∃ r, (exec c (saveCalls u order) (exec c ops createTables)).user_data.filter
                (matchesKey u k) = [r] ∧ r.data_value = c.toJson D) ∧
              getUserData c (exec c (saveCalls u order) (exec c ops createTables)) u k
                = c.object (c.fromJson (c.toJson D)) ∧
              (Serializable c D →
                getUserData c (exec c (saveCalls u order) (exec c ops createTables)) u k
                  = D)) := by
  refine ⟨fun db k D now => (getUserData_after_save c db u k D now).1, ?_, ?_⟩
  · rintro pre post k D now rfl hlast
    obtain ⟨h1, h2⟩ := after_saveCalls c ops u pre post k D now hlast
    exact ⟨h1, h2, fun hser => h2.trans hser⟩
  · intro hnd order hperm k D now hmem
    have hmem2 : (k, D, now) ∈ order := hperm.mem_iff.mpr hmem
    obtain ⟨pre, post, rfl⟩ := List.append_of_mem hmem2
    have hnd2 : ((pre ++ (k, D, now) :: post).map fun call => call.1).Nodup :=
      (hperm.map _).nodup_iff.mpr hnd
    have hlast : ∀ call ∈ post, call.1 ≠ k := by
      intro call hcall heq
      rw [List.map_append, List.map_cons, List.nodup_append] at hnd2
      have := (List.nodup_cons.mp hnd2.2.1).1
      apply this
      rw [List.mem_map]
      exact ⟨call, hcall, heq⟩
    obtain ⟨h1, h2⟩ := after_saveCalls c ops u pre post k D now hlast
    exact ⟨h1, h2, fun hser => h2.trans hser⟩

/-! ## The claims at concrete inputs -/

/-- The scenario of C1: alice is created with hash h1, a second createUser for
alice with hash h2 returns false and changes nothing, and her hash is still h1. -/
theorem createUser_existing_username_witness :
    (createUser createTables uuidA "alice" "h1" 0).1 = true ∧
      (⟨uuidA, "alice", "h1", 0⟩ : UserRow) ∈
        (exec qjson [Op.createUser uuidA "alice" "h1" 0] createTables).users ∧
      createUser (exec qjson [Op.createUser uuidA "alice" "h1" 0] createTables)
          uuidB "alice" "h2" 5
        = (false, exec qjson [Op.createUser uuidA "alice" "h1" 0] createTables) ∧
      getUserPasswordHash
          (createUser (exec qjson [Op.createUser uuidA "alice" "h1" 0] createTables)
            uuidB "alice" "h2" 5).2 "alice" = "h1" :=
  ⟨by decide, by decide,
    (createUser_existing_username qjson [Op.createUser uuidA "alice" "h1" 0]
      ⟨uuidA, "alice", "h1", 0⟩ (by decide) uuidB "h2" 5).1,
    (createUser_existing_username qjson [Op.createUser uuidA "alice" "h1" 0]
      ⟨uuidA, "alice", "h1", 0⟩ (by decide) uuidB "h2" 5).2.2.1⟩

/-- The amended C2 at a database that holds alice: bob, with a new id, is created. -/
theorem createUser_unused_username_fresh_id_witness :
    (∀ r ∈ (createUser createTables uuidA "alice" "h1" 0).2.users, r.username ≠ "bob") ∧
      (∀ r ∈ (createUser createTables uuidA "alice" "h1" 0).2.users, r.id ≠ uuidB) ∧
      (createUser (createUser createTables uuidA "alice" "h1" 0).2
        uuidB "bob" "h2" 1).1 = true ∧
      userExists (createUser (createUser createTables uuidA "alice" "h1" 0).2
        uuidB "bob" "h2" 1).2 "bob" = true :=
  ⟨by decide, by decide,
    createUser_unused_username_fresh_id (createUser createTables uuidA "alice" "h1" 0).2
      uuidB "bob" "h2" 1 (by decide) (by decide)⟩

/-- C3 at a concrete history: after alice is created, a second createUser for
alice, a createUser for bob and the calls of sampleHistory leave her hash and
her id as they were. -/
theorem getters_after_createUser_witness :
    createUser createTables uuidC "alice" "h1" 0
        = (true, ⟨[⟨uuidC, "alice", "h1", 0⟩], []⟩) ∧
      getUserPasswordHash
        (exec qjson (Op.createUser uuidB "alice" "h2" 1 ::
          Op.createUser uuidC "bob" "h3" 2 :: sampleHistory)
          ⟨[⟨uuidC, "alice", "h1", 0⟩], []⟩) "alice" = "h1" ∧
      getUserId
        (exec qjson (Op.createUser uuidB "alice" "h2" 1 ::
          Op.createUser uuidC "bob" "h3" 2 :: sampleHistory)
          ⟨[⟨uuidC, "alice", "h1", 0⟩], []⟩) "alice" = uuidC :=
  ⟨by decide,
    getters_after_createUser qjson createTables ⟨[⟨uuidC, "alice", "h1", 0⟩], []⟩
      uuidC "alice" "h1" 0 (by decide)
      (Op.createUser uuidB "alice" "h2" 1 ::
        Op.createUser uuidC "bob" "h3" 2 :: sampleHistory)⟩

/-- C4 at a nested document, saved over the tables sampleHistory leaves. -/
theorem saveUserData_getUserData_roundtrip_witness :
    Serializable qjson sampleDoc ∧
      (saveUserData qjson (exec qjson sampleHistory createTables) "u1" "c" sampleDoc 20).1
        = true ∧
      getUserData qjson
        (saveUserData qjson (exec qjson sampleHistory createTables) "u1" "c" sampleDoc 20).2
        "u1" "c" = sampleDoc :=
  ⟨qjson_serializable _,
    saveUserData_getUserData_roundtrip qjson (exec qjson sampleHistory createTables)
      "u1" "c" sampleDoc 20 (qjson_serializable _)⟩

/-- The amended C6 with one second between the two writes. -/
theorem saveUserData_twice_updated_at_witness :
    1700000000 ≤ 1700000001 ∧
      ∃ item ∈ getAllUserData qjson
          (saveUserData qjson
            (saveUserData qjson createTables "u1" "prefs" sampleDoc 1700000000).2
            "u1" "prefs" sampleDoc2 1700000001).2 "u1",
        item.key = "prefs" :=
  ⟨by decide,
    (saveUserData_twice_updated_at qjson createTables "u1" "prefs" sampleDoc sampleDoc2
      1700000000 1700000001 (by decide)).2.1⟩

/-- C7 on a pair that is not stored: the database stays as it is. -/
theorem deleteUserData_removes_witness :
    (exec qjson sampleHistory createTables).user_data.filter (matchesKey "u1" "zz") = [] ∧
      (deleteUserData (exec qjson sampleHistory createTables) "u1" "zz").2
        = exec qjson sampleHistory createTables :=
  ⟨by decide,
    (deleteUserData_removes qjson (exec qjson sampleHistory createTables) "u1" "zz").2.2.2.2
      (by decide)⟩

/-- C8 on sampleHistory: user u1 is left with the key c alone, the key of a
save that no later call of the history touched. -/
theorem getAllUserData_exact_keys_witness :
    (getAllUserData qjson (exec qjson sampleHistory createTables) "u1").map
        (fun item => item.key) = ["c"] ∧
      ∃ D pre post now, sampleHistory = pre ++ Op.saveUserData "u1" "c" D now :: post ∧
        ∀ op ∈ post, touches "u1" "c" op = false :=
  ⟨by decide,
    ((getAllUserData_exact_keys qjson sampleHistory "u1").2.1 "c").mp (by decide)⟩

/-- C9 on a database that holds alice: Alice, with a capital, does not exist. -/
theorem userExists_iff_and_absent_witness :
    (∀ r ∈ (exec qjson sampleHistory createTables).users, r.username ≠ "Alice") ∧
      userExists (exec qjson sampleHistory createTables) "alice" = true ∧
      (userExists (exec qjson sampleHistory createTables) "Alice" = false ∧
        getUserPasswordHash (exec qjson sampleHistory createTables) "Alice" = "" ∧
        getUserId (exec qjson sampleHistory createTables) "Alice" = "") :=
  ⟨by decide, by decide,
    (userExists_iff_and_absent qjson sampleHistory "Alice").2 (by decide)⟩

/-- C10 on a batch that writes key a twice: the second document is the one kept. -/
theorem saveUserData_no_lost_update_witness :
    Serializable qjson sampleDoc2 ∧
      getUserData qjson
        (exec qjson (saveCalls "u1" [("a", sampleDoc, 21), ("b", sampleDoc, 21),
          ("a", sampleDoc2, 22)]) (exec qjson sampleHistory createTables)) "u1" "a"
        = sampleDoc2 :=
  ⟨qjson_serializable _,
    ((saveUserData_no_lost_update qjson sampleHistory "u1"
        [("a", sampleDoc, 21), ("b", sampleDoc, 21), ("a", sampleDoc2, 22)]).2.1
      [("a", sampleDoc, 21), ("b", sampleDoc, 21)] [] "a" sampleDoc2 22 rfl
      (by simp)).2.2 (qjson_serializable _)⟩

end QLogin
